import Mathlib

/-!
Command decoder of `distributed-kv-store` (`src/main.go`)

A shallow embedding of the binary command decoder: the primitive readers
`getU8`, `getU32`, `getString`, the body parsers `parse_set`, `parse_get`,
`parse_clear` and the dispatcher `parse`.

Conventions of the embedding

* A Go `byte` is a `UInt8`; a Go `string` / `[]byte` is a `List UInt8`
  (a Go string is a sequence of bytes, `string(strBuffer)` copies them).
* `uint32` / `uint64` values are `Nat`, reduced `% 2 ^ 64` where Go would wrap.
* A `*bytes.Reader` is the pair of its buffer `s` and its read index `i`;
  a function that advances the reader returns the new reader next to its results.
* A Go `error` is `Option GoError`, `none` being `nil`.
* `make([]byte, length)` panics when `length` exceeds what the runtime can
  allocate; that bound is the parameter `maxAlloc` (on every Go platform it is
  at most the largest `int`, so below `2 ^ 63`).  A panic is the outcome
  `Run.panics`.
-/

namespace KVStore

/-! ## Data model -/

/-- The `Command` enumeration of the source (`iota` order: Set = 0, Get = 1,
Clear = 2, Unknown = 3). -/
inductive Command where
  | SetCommand
  | GetCommand
  | ClearCommand
  | UnknownCommand
  deriving DecidableEq, Repr

/-- The record `CommandInfo` of the source. -/
structure CommandInfo where
  Cmd : Command
  Key : List UInt8
  Value : List UInt8
  deriving DecidableEq, Repr

/-- The error values that can reach the caller of `parse`. -/
inductive GoError where
  /-- The value `errors.New("unexpected end of input")` of `getU8` and `getU32`. -/
  | unexpectedEndOfInput
  /-- The value `errors.New("Unknown command")` of `parse`. -/
  | unknownCommand
  /-- The value `io.EOF`. -/
  | EOF
  /-- The value `io.ErrUnexpectedEOF`. -/
  | ErrUnexpectedEOF
  /-- The overflow error of `binary.ReadUvarint`. -/
  | errOverflow
  deriving DecidableEq, Repr

/-- Outcome of a call that may panic: either it returns `a`, or it panics. -/
inductive Run (α : Type) where
  | ret (a : α)
  | panics
  deriving DecidableEq, Repr

/-- The state of a `bytes.Reader`: the buffer and the current read index. -/
structure Reader where
  s : List UInt8
  i : Nat
  deriving DecidableEq, Repr

/-- The call `bytes.NewReader(b)`. -/
def NewReader (b : List UInt8) : Reader := { s := b, i := 0 }

/-! ## The library calls the decoder makes -/

/-- The method `(*bytes.Reader).Read(b)` with `len(b) = k`: at the end of the
buffer it returns `0, io.EOF`; otherwise it copies `min k (remaining)` bytes
and advances by that many.  The result lists the bytes copied. -/
def Reader.Read (r : Reader) (k : Nat) : (List UInt8 × Option GoError) × Reader :=
  if r.i ≥ r.s.length then (([], some GoError.EOF), r)
  else
    let got := (r.s.drop r.i).take k
    ((got, none), { r with i := r.i + got.length })

/-- The method `(*bytes.Reader).ReadByte()`. -/
def Reader.ReadByte (r : Reader) : (UInt8 × Option GoError) × Reader :=
  if r.i ≥ r.s.length then ((0, some GoError.EOF), r)
  else ((r.s.getD r.i 0, none), { r with i := r.i + 1 })

/-- A zero-initialised array of `k` bytes after its first bytes were overwritten
by `got` (the effect of `copy` into a fresh array). -/
def fillZero (k : Nat) (got : List UInt8) : List UInt8 :=
  got ++ List.replicate (k - got.length) 0

/-- The function `binary.LittleEndian.Uint32` on a 4-byte array:
`uint32(b[0]) | uint32(b[1])<<8 | uint32(b[2])<<16 | uint32(b[3])<<24`. -/
def Uint32LE (b : List UInt8) : Nat :=
  (b.getD 0 0).toNat ||| ((b.getD 1 0).toNat <<< 8) ||| ((b.getD 2 0).toNat <<< 16)
    ||| ((b.getD 3 0).toNat <<< 24)

/-- The loop of `binary.ReadUvarint` (Go standard library):
`for i := 0; i < MaxVarintLen64; i++ { b, err := r.ReadByte(); if err != nil {
if i > 0 && err == io.EOF { err = io.ErrUnexpectedEOF }; return x, err };
if b < 0x80 { if i == MaxVarintLen64-1 && b > 1 { return x, errOverflow };
return x | uint64(b)<<s, nil }; x |= uint64(b&0x7f) << s; s += 7 }`.
Here `fuel` iterations remain, `i` is the loop counter, `x` the accumulator and
`s` the shift.  With no iteration left the loop has run `MaxVarintLen64` times
and the function returns `x, errOverflow`. -/
def ReadUvarintLoop : Nat → Nat → Nat → Nat → Reader → (Nat × Option GoError) × Reader
  | 0, _, x, _, r => ((x, some GoError.errOverflow), r)
  | fuel + 1, i, x, s, r =>
    match r.ReadByte with
    | ((_, some err), r1) =>
      ((x, some (if i > 0 ∧ err = GoError.EOF then GoError.ErrUnexpectedEOF else err)), r1)
    | ((b, none), r1) =>
      if b.toNat < 0x80 then
        if i = 9 ∧ b.toNat > 1 then ((x, some GoError.errOverflow), r1)
        else ((x ||| ((b.toNat <<< s) % 2 ^ 64), none), r1)
      else
        ReadUvarintLoop fuel (i + 1) (x ||| (((b.toNat &&& 0x7f) <<< s) % 2 ^ 64)) (s + 7) r1

/-- The function `binary.ReadUvarint` (`MaxVarintLen64 = 10`). -/
def ReadUvarint (r : Reader) : (Nat × Option GoError) × Reader :=
  ReadUvarintLoop 10 0 0 0 r

/-- The loop of `io.ReadAtLeast(r, buf, min)` with `len(buf) = min = k`:
`for n < min && err == nil { nn, err = r.Read(buf[n:]); n += nn }`.
`acc` holds the `n` bytes read so far. -/
def ReadAtLeastLoop (k : Nat) : Nat → List UInt8 → Reader → (List UInt8 × Option GoError) × Reader
  | 0, acc, r => ((acc, none), r)
  | fuel + 1, acc, r =>
    if acc.length < k then
      match r.Read (k - acc.length) with
      | ((got, some e), r1) => ((acc ++ got, some e), r1)
      | ((got, none), r1) => ReadAtLeastLoop k fuel (acc ++ got) r1
    else ((acc, none), r)

/-- The function `io.ReadFull(r, buf)` with `len(buf) = k`, returning the
contents of `buf` next to the error.  A `Read` without error on a non-empty
slice copies at least one byte, so `k + 1` iterations are never exhausted.
After the loop: `if n >= min { err = nil } else if n > 0 && err == EOF
{ err = ErrUnexpectedEOF }`. -/
def ReadFull (r : Reader) (k : Nat) : (List UInt8 × Option GoError) × Reader :=
  match ReadAtLeastLoop k (k + 1) [] r with
  | ((acc, err), r1) =>
    let err1 : Option GoError :=
      if acc.length ≥ k then none
      else if acc.length > 0 ∧ err = some GoError.EOF then some GoError.ErrUnexpectedEOF
      else err
    ((fillZero k acc, err1), r1)

/-! ## Primitive readers -/

/-- Source function `getU8`. -/
def getU8 (cur : Reader) : (UInt8 × Option GoError) × Reader :=
  match cur.Read 1 with
  | ((_, some e), cur1) =>
    if e = GoError.EOF then ((0, some GoError.unexpectedEndOfInput), cur1)
    else ((0, some e), cur1)
  | ((got, none), cur1) => (((fillZero 1 got).getD 0 0, none), cur1)

/-- Source function `getU32`. -/
def getU32 (cur : Reader) : (Nat × Option GoError) × Reader :=
  match cur.Read 4 with
  | ((_, some e), cur1) =>
    if e = GoError.EOF then ((0, some GoError.unexpectedEndOfInput), cur1)
    else ((0, some e), cur1)
  | ((got, none), cur1) => ((Uint32LE (fillZero 4 got), none), cur1)

/-- Source function `getString`.  The slice `make([]byte, length)` cannot be
allocated when `length > maxAlloc`, and the call panics. -/
def getString (maxAlloc : Nat) (cur : Reader) : Run ((List UInt8 × Option GoError) × Reader) :=
  match ReadUvarint cur with
  | ((_, some err), cur1) => Run.ret (([], some err), cur1)
  | ((length, none), cur1) =>
    if length > maxAlloc then Run.panics
    else
      match ReadFull cur1 length with
      | ((_, some _), cur2) => Run.ret (([], none), cur2)
      | ((strBuffer, none), cur2) => Run.ret ((strBuffer, none), cur2)

/-! ## Body parsers and dispatcher -/

/-- Source function `parse_get`. -/
def parse_get (maxAlloc : Nat) (data : Reader) : Run ((CommandInfo × Option GoError) × Reader) :=
  let cmdInfo : CommandInfo := { Cmd := Command.GetCommand, Key := [], Value := [] }
  match getString maxAlloc data with
  | Run.panics => Run.panics
  | Run.ret ((_, some err), d1) => Run.ret (({ cmdInfo with Key := [] }, some err), d1)
  | Run.ret ((key, none), d1) => Run.ret (({ cmdInfo with Key := key }, none), d1)

/-- Source function `parse_set`. -/
def parse_set (maxAlloc : Nat) (data : Reader) : Run ((CommandInfo × Option GoError) × Reader) :=
  let cmdInfo : CommandInfo := { Cmd := Command.SetCommand, Key := [], Value := [] }
  match getString maxAlloc data with
  | Run.panics => Run.panics
  | Run.ret ((_, some err), d1) => Run.ret (({ cmdInfo with Key := [] }, some err), d1)
  | Run.ret ((key, none), d1) =>
    let cmdInfo1 : CommandInfo := { cmdInfo with Key := key }
    match getString maxAlloc d1 with
    | Run.panics => Run.panics
    | Run.ret ((_, some err), d2) => Run.ret (({ cmdInfo1 with Value := [] }, some err), d2)
    | Run.ret ((value, none), d2) => Run.ret (({ cmdInfo1 with Value := value }, none), d2)

/-- Source function `parse_clear`. -/
def parse_clear (maxAlloc : Nat) (data : Reader) : Run ((CommandInfo × Option GoError) × Reader) :=
  let cmdInfo : CommandInfo := { Cmd := Command.ClearCommand, Key := [], Value := [] }
  match getString maxAlloc data with
  | Run.panics => Run.panics
  | Run.ret ((_, some err), d1) => Run.ret (({ cmdInfo with Key := [] }, some err), d1)
  | Run.ret ((key, none), d1) => Run.ret (({ cmdInfo with Key := key }, none), d1)

/-- Source function `parse`.  `CommandInfo{}` is the zero value, whose `Cmd`
is `SetCommand` (the constant 0).  In the three matched branches the error of
the body parser is assigned to `err` and `nil` is returned. -/
def parse (maxAlloc : Nat) (data : Reader) : Run ((CommandInfo × Option GoError) × Reader) :=
  let cmdInfo : CommandInfo := { Cmd := Command.SetCommand, Key := [], Value := [] }
  match getU8 data with
  | ((_, some err), d1) => Run.ret ((cmdInfo, some err), d1)
  | ((_, none), d1) =>
    match getU32 d1 with
    | ((_, some err), d2) =>
      Run.ret (({ cmdInfo with Cmd := Command.UnknownCommand }, some err), d2)
    | ((command, none), d2) =>
      if command = 0 then
        match parse_set maxAlloc d2 with
        | Run.panics => Run.panics
        | Run.ret ((ci, _), d3) => Run.ret ((ci, none), d3)
      else if command = 1 then
        match parse_get maxAlloc d2 with
        | Run.panics => Run.panics
        | Run.ret ((ci, _), d3) => Run.ret ((ci, none), d3)
      else if command = 2 then
        match parse_clear maxAlloc d2 with
        | Run.panics => Run.panics
        | Run.ret ((ci, _), d3) => Run.ret ((ci, none), d3)
      else
        Run.ret (({ cmdInfo with Cmd := Command.UnknownCommand },
          some GoError.unknownCommand), d2)

/-- The result of a call, forgetting the reader it leaves behind. -/
def Run.result {α : Type} : Run (α × Reader) → Run α
  | Run.panics => Run.panics
  | Run.ret (a, _) => Run.ret a

/-- Decoding a byte buffer the way `main` does:
`reader := bytes.NewReader(data); cmd, err := parse(reader)`. -/
def parseBytes (maxAlloc : Nat) (data : List UInt8) : Run (CommandInfo × Option GoError) :=
  (parse maxAlloc (NewReader data)).result

/-! ## The wire format, as the specification words it -/

/-- The loop of the mirror encoder of a length (Go's `binary.PutUvarint`):
`for x >= 0x80 { emit byte(x)|0x80; x >>= 7 }; emit byte(x)`.  A `uint64`
needs at most nine continuation bytes, which is the `fuel`. -/
def uvarintAux : Nat → Nat → List UInt8
  | 0, x => [UInt8.ofNat x]
  | fuel + 1, x =>
    if x < 0x80 then [UInt8.ofNat x]
    else UInt8.ofNat (x % 128 + 128) :: uvarintAux fuel (x / 128)

/-- The minimal unsigned LEB128 encoding of a length below `2 ^ 64`. -/
def uvarint (x : Nat) : List UInt8 := uvarintAux 9 x

/-- A `uint32` as four bytes, least significant first. -/
def u32le (v : Nat) : List UInt8 :=
  [UInt8.ofNat (v % 256), UInt8.ofNat (v / 2 ^ 8 % 256), UInt8.ofNat (v / 2 ^ 16 % 256),
    UInt8.ofNat (v / 2 ^ 24 % 256)]

/-- The command code of a kind on the wire: `0 = Set`, `1 = Get`, `2 = Clear`
(the numeric value of the constant). -/
def Command.code : Command → Nat
  | Command.SetCommand => 0
  | Command.GetCommand => 1
  | Command.ClearCommand => 2
  | Command.UnknownCommand => 3

/-- A length-prefixed string field: `[varint length][length bytes]`. -/
def encodeString (p : List UInt8) : List UInt8 := uvarint p.length ++ p

/-- The mirror encoder of the specification: header byte, command code, key,
and the value for a Set. -/
def encode (h0 : UInt8) (c : CommandInfo) : List UInt8 :=
  [h0] ++ u32le c.Cmd.code ++ encodeString c.Key ++
    (if c.Cmd = Command.SetCommand then encodeString c.Value else [])

/-- The error kind `Truncated` of the specification: fewer bytes remain than a
field requires.  These are the errors the readers raise at the end of input. -/
def isTruncated : Option GoError → Bool
  | some GoError.unexpectedEndOfInput => true
  | some GoError.EOF => true
  | some GoError.ErrUnexpectedEOF => true
  | _ => false

/-- The command code of a buffer as the specification reads it: bytes 1..4 as
a little-endian unsigned integer. -/
def commandCode (buf : List UInt8) : Nat :=
  (buf.getD 1 0).toNat + 2 ^ 8 * (buf.getD 2 0).toNat + 2 ^ 16 * (buf.getD 3 0).toNat
    + 2 ^ 24 * (buf.getD 4 0).toNat

/-- The cursor `r1` is a later state of the cursor `r`: same buffer, a position
that did not decrease and that lies within the buffer. -/
def Reader.advances (r r1 : Reader) : Prop :=
  r1.s = r.s ∧ r.i ≤ r1.i ∧ r1.i ≤ r.s.length

/-- The little-endian value of a run of bytes, least significant first. -/
def leValue : List UInt8 → Nat
  | [] => 0
  | b :: tl => b.toNat + 2 ^ 8 * leValue tl

/-- The value of an unsigned LEB128 byte sequence: the low 7 bits of each byte
are data, in little-endian group order. -/
def leb128Value : List UInt8 → Nat
  | [] => 0
  | b :: tl => b.toNat % 128 + 128 * leb128Value tl

/-- A terminating unsigned LEB128 byte sequence: every byte but the last has
the high bit set ("more bytes follow"), the last has it clear. -/
def leb128Terminated : List UInt8 → Bool
  | [] => false
  | b :: [] => decide (b.toNat < 128)
  | b :: c :: tl => decide (128 ≤ b.toNat) && leb128Terminated (c :: tl)

/-- The byte sequence `e` is an unsigned LEB128 encoding of `n`, minimal or not,
of at most 10 bytes (the most a reader of 64-bit lengths consumes). -/
@[reducible] def lengthPrefix (e : List UInt8) (n : Nat) : Prop :=
  leb128Terminated e = true ∧ e.length ≤ 10 ∧ leb128Value e = n

/-- Two cursors that cannot be told apart by reading on: same position, same
buffer length and the same bytes from the position on. -/
def Reader.sameFrom (r r1 : Reader) : Prop :=
  r.i = r1.i ∧ r.s.length = r1.s.length ∧ r.s.drop r.i = r1.s.drop r1.i

/-! ## Lemmas on the readers -/

theorem ReadByte_of_drop (r : Reader) (b : UInt8) (tl : List UInt8)
    (h : r.s.drop r.i = b :: tl) :
    r.ReadByte = ((b, none), { r with i := r.i + 1 }) ∧ r.s.drop (r.i + 1) = tl := by
  have hlt : r.i < r.s.length := by
    by_contra hc
    rw [List.drop_eq_nil_of_le (by omega)] at h
    exact List.noConfusion h
  have h2 := List.drop_eq_getElem_cons hlt
  rw [h2] at h
  injection h with hb ht
  refine ⟨?_, ht⟩
  unfold Reader.ReadByte
  rw [if_neg (by omega), List.getD_eq_getElem _ _ hlt, hb]

theorem toNat_ofNat_lt (x : Nat) (h : x < 256) : (UInt8.ofNat x).toNat = x := by
  show x % 256 = x
  exact Nat.mod_eq_of_lt h

/-- Below the shift, `|` adds: the accumulator of `ReadUvarint` holds the low
`s` bits and the new group lands above them. -/
theorem or_shift (x b s : Nat) (hx : x < 2 ^ s) (hb : b * 2 ^ s < 2 ^ 64) :
    x ||| ((b <<< s) % 2 ^ 64) = x + b * 2 ^ s := by
  rw [Nat.shiftLeft_eq, Nat.mod_eq_of_lt hb, Nat.or_comm, Nat.mul_comm,
    ← Nat.mul_add_lt_is_or hx, Nat.add_comm]

/-- The decoding loop undoes the encoding loop: entered at iteration `i` with
the low `7 * i` bits in `x` and the encoding of the remaining groups `m` under
the cursor, it returns `x + m * 2 ^ (7 * i)` and stops right after them. -/
theorem ReadUvarintLoop_uvarintAux (k : Nat) :
    ∀ (i x m : Nat) (r : Reader) (rest : List UInt8),
    i + k = 9 → x < 2 ^ (7 * i) → m < 2 ^ (64 - 7 * i) →
    r.s.drop r.i = uvarintAux k m ++ rest →
    ReadUvarintLoop (k + 1) i x (7 * i) r =
      ((x + m * 2 ^ (7 * i), none), { r with i := r.i + (uvarintAux k m).length }) := by
  induction k with
  | zero =>
    intro i x m r rest hi hx hm hd
    have hi9 : i = 9 := by omega
    subst hi9
    have hm2 : m < 2 := by simpa using hm
    simp only [uvarintAux, List.singleton_append] at hd
    obtain ⟨hrb, -⟩ := ReadByte_of_drop r _ _ hd
    have hb : (UInt8.ofNat m).toNat = m := toNat_ofNat_lt m (by omega)
    simp only [ReadUvarintLoop, hrb, hb, uvarintAux, List.length_singleton]
    have hb2 : m * 2 ^ (7 * 9) < 2 ^ 64 := by
      have : m * 2 ^ (7 * 9) ≤ 1 * 2 ^ (7 * 9) := Nat.mul_le_mul_right _ (by omega)
      norm_num at this ⊢
      omega
    rw [if_pos (by omega), if_neg (by omega), or_shift _ _ _ hx hb2]
  | succ k ih =>
    intro i x m r rest hi hx hm hd
    have hpow : (2:Nat) ^ (64 - 7 * i) * 2 ^ (7 * i) = 2 ^ 64 := by
      rw [← pow_add]; congr 1; omega
    have hmlt : m * 2 ^ (7 * i) < 2 ^ 64 := by
      rw [← hpow]; exact Nat.mul_lt_mul_of_pos_right hm (by positivity)
    by_cases hsmall : m < 0x80
    · simp only [uvarintAux, if_pos hsmall, List.singleton_append] at hd
      obtain ⟨hrb, -⟩ := ReadByte_of_drop r _ _ hd
      have hb : (UInt8.ofNat m).toNat = m := toNat_ofNat_lt m (by omega)
      simp only [ReadUvarintLoop, hrb, hb, uvarintAux, if_pos hsmall, List.length_singleton]
      rw [if_neg (by omega), or_shift _ _ _ hx hmlt]
    · simp only [uvarintAux, if_neg hsmall, List.cons_append] at hd
      obtain ⟨hrb, hd1⟩ := ReadByte_of_drop r _ _ hd
      have hb : (UInt8.ofNat (m % 128 + 128)).toNat = m % 128 + 128 :=
        toNat_ofNat_lt _ (by omega)
      have hand : (m % 128 + 128) &&& 0x7f = m % 128 := by
        have := Nat.and_pow_two_sub_one_eq_mod (m % 128 + 128) 7
        norm_num at this ⊢
        omega
      have hstep : x ||| (((m % 128) <<< (7 * i)) % 2 ^ 64) = x + (m % 128) * 2 ^ (7 * i) :=
        or_shift _ _ _ hx (lt_of_le_of_lt (Nat.mul_le_mul_right _ (Nat.mod_le _ _)) hmlt)
      have e : (2:Nat) ^ (7 * (i + 1)) = 2 ^ (7 * i) * 128 := by
        rw [Nat.mul_add, pow_add]; norm_num
      have hx1 : x + (m % 128) * 2 ^ (7 * i) < 2 ^ (7 * (i + 1)) := by
        rw [e]
        have : m % 128 < 128 := Nat.mod_lt _ (by norm_num)
        nlinarith
      have hm1 : m / 128 < 2 ^ (64 - 7 * (i + 1)) := by
        rw [Nat.div_lt_iff_lt_mul (by norm_num)]
        have e2 : (2:Nat) ^ (64 - 7 * (i + 1)) * 128 = 2 ^ (64 - 7 * i) := by
          have : (128:Nat) = 2 ^ 7 := by norm_num
          rw [this, ← pow_add]; congr 1; omega
        rw [e2]; exact hm
      have := ih (i + 1) (x + (m % 128) * 2 ^ (7 * i)) (m / 128) { r with i := r.i + 1 } rest
        (by omega) hx1 hm1 hd1
      simp only [ReadUvarintLoop, hrb, hb, uvarintAux, if_neg hsmall, List.length_cons] at this ⊢
      rw [if_neg (by omega), hand, hstep]
      have e7 : 7 * i + 7 = 7 * (i + 1) := by ring
      rw [e7, this]
      have hsum : x + m % 128 * 2 ^ (7 * i) + m / 128 * 2 ^ (7 * (i + 1))
          = x + m * 2 ^ (7 * i) := by
        rw [e]
        have hdm := Nat.mod_add_div m 128
        nlinarith [hdm]
      rw [hsum]
      simp only [Nat.add_assoc, Nat.add_comm 1]

theorem ReadUvarint_uvarint (n : Nat) (hn : n < 2 ^ 64) (r : Reader) (rest : List UInt8)
    (hd : r.s.drop r.i = uvarint n ++ rest) :
    ReadUvarint r = ((n, none), { r with i := r.i + (uvarint n).length }) := by
  have := ReadUvarintLoop_uvarintAux 9 0 0 n r rest (by norm_num) (by norm_num)
    (by simpa using hn) hd
  simpa [ReadUvarint, uvarint] using this

theorem Read_of_lt (r : Reader) (k : Nat) (h : r.i < r.s.length) :
    r.Read k = (((r.s.drop r.i).take k, none),
      { r with i := r.i + ((r.s.drop r.i).take k).length }) := by
  unfold Reader.Read
  rw [if_neg (by omega)]

theorem ReadFull_exact (r : Reader) (p rest : List UInt8) (hd : r.s.drop r.i = p ++ rest) :
    ReadFull r p.length = ((p, none), { r with i := r.i + p.length }) := by
  cases p with
  | nil => simp [ReadFull, ReadAtLeastLoop, fillZero]
  | cons b tl =>
    have hlt : r.i < r.s.length := by
      by_contra hc
      rw [List.drop_eq_nil_of_le (by omega)] at hd
      exact List.noConfusion hd
    have htake : (r.s.drop r.i).take (tl.length + 1) = b :: tl := by
      rw [hd]; simp
    simp [ReadFull, ReadAtLeastLoop, fillZero, Read_of_lt r _ hlt, htake]

/-- On a well-formed field `getString` returns the payload and stops after it. -/
theorem getString_encoded (maxAlloc : Nat) (hm : maxAlloc < 2 ^ 64) (r : Reader)
    (p rest : List UInt8) (hp : p.length ≤ maxAlloc)
    (hd : r.s.drop r.i = encodeString p ++ rest) :
    getString maxAlloc r =
      Run.ret ((p, none), { r with i := r.i + (encodeString p).length }) := by
  have hd1 : r.s.drop r.i = uvarint p.length ++ (p ++ rest) := by
    rw [hd, encodeString, List.append_assoc]
  have h1 := ReadUvarint_uvarint p.length (by omega) r (p ++ rest) hd1
  have hd2 : (r.s.drop (r.i + (uvarint p.length).length)) = p ++ rest := by
    rw [← List.drop_drop, hd1, List.drop_left]
  have h2 := ReadFull_exact { r with i := r.i + (uvarint p.length).length } p rest hd2
  simp only [getString, h1, h2]
  rw [if_neg (by omega)]
  simp [encodeString, Nat.add_assoc]

theorem parse_get_encoded (maxAlloc : Nat) (hm : maxAlloc < 2 ^ 64) (r : Reader)
    (K rest : List UInt8) (hK : K.length ≤ maxAlloc)
    (hd : r.s.drop r.i = encodeString K ++ rest) :
    (parse_get maxAlloc r).result =
      Run.ret ({ Cmd := Command.GetCommand, Key := K, Value := [] }, none) := by
  simp [parse_get, getString_encoded maxAlloc hm r K rest hK hd, Run.result]

theorem parse_clear_encoded (maxAlloc : Nat) (hm : maxAlloc < 2 ^ 64) (r : Reader)
    (K rest : List UInt8) (hK : K.length ≤ maxAlloc)
    (hd : r.s.drop r.i = encodeString K ++ rest) :
    (parse_clear maxAlloc r).result =
      Run.ret ({ Cmd := Command.ClearCommand, Key := K, Value := [] }, none) := by
  simp [parse_clear, getString_encoded maxAlloc hm r K rest hK hd, Run.result]

theorem parse_set_encoded (maxAlloc : Nat) (hm : maxAlloc < 2 ^ 64) (r : Reader)
    (K V rest : List UInt8) (hK : K.length ≤ maxAlloc) (hV : V.length ≤ maxAlloc)
    (hd : r.s.drop r.i = encodeString K ++ (encodeString V ++ rest)) :
    (parse_set maxAlloc r).result =
      Run.ret ({ Cmd := Command.SetCommand, Key := K, Value := V }, none) := by
  have h1 := getString_encoded maxAlloc hm r K _ hK hd
  have hd2 : (r.s.drop (r.i + (encodeString K).length)) = encodeString V ++ rest := by
    rw [← List.drop_drop, hd, List.drop_left]
  have h2 := getString_encoded maxAlloc hm { r with i := r.i + (encodeString K).length } V rest hV hd2
  simp [parse_set, h1, h2, Run.result]

/-- The header of a buffer of at least five bytes: `getU8` and `getU32` both
succeed and leave the cursor at offset 5. -/
theorem header_read (h c0 c1 c2 c3 : UInt8) (body : List UInt8) :
    getU8 (NewReader (h :: c0 :: c1 :: c2 :: c3 :: body))
        = ((h, none), { s := h :: c0 :: c1 :: c2 :: c3 :: body, i := 1 }) ∧
    getU32 { s := h :: c0 :: c1 :: c2 :: c3 :: body, i := 1 }
        = ((Uint32LE [c0, c1, c2, c3], none), { s := h :: c0 :: c1 :: c2 :: c3 :: body, i := 5 }) := by
  constructor <;> simp [getU8, getU32, NewReader, Reader.Read, fillZero]

/-- What `parse` does after the five header bytes. -/
theorem parse_dispatch (maxAlloc : Nat) (h c0 c1 c2 c3 : UInt8) (body : List UInt8) :
    parse maxAlloc (NewReader (h :: c0 :: c1 :: c2 :: c3 :: body)) =
      (let d2 : Reader := { s := h :: c0 :: c1 :: c2 :: c3 :: body, i := 5 }
       let command := Uint32LE [c0, c1, c2, c3]
       if command = 0 then
         match parse_set maxAlloc d2 with
         | Run.panics => Run.panics
         | Run.ret ((ci, _), d3) => Run.ret ((ci, none), d3)
       else if command = 1 then
         match parse_get maxAlloc d2 with
         | Run.panics => Run.panics
         | Run.ret ((ci, _), d3) => Run.ret ((ci, none), d3)
       else if command = 2 then
         match parse_clear maxAlloc d2 with
         | Run.panics => Run.panics
         | Run.ret ((ci, _), d3) => Run.ret ((ci, none), d3)
       else
         Run.ret (({ Cmd := Command.UnknownCommand, Key := [], Value := [] },
           some GoError.unknownCommand), d2)) := by
  obtain ⟨h1, h2⟩ := header_read h c0 c1 c2 c3 body
  simp only [parse, h1, h2]

/-- Below the shift, `|` adds (no wrap-around involved). -/
theorem or_shiftLeft_eq_add (x b s : Nat) (hx : x < 2 ^ s) : x ||| (b <<< s) = x + b * 2 ^ s := by
  rw [Nat.shiftLeft_eq, Nat.or_comm, Nat.mul_comm, ← Nat.mul_add_lt_is_or hx, Nat.add_comm]

/-- The value `binary.LittleEndian.Uint32` computes, in arithmetic form. -/
theorem Uint32LE_eq (c0 c1 c2 c3 : UInt8) :
    Uint32LE [c0, c1, c2, c3]
      = c0.toNat + 2 ^ 8 * c1.toNat + 2 ^ 16 * c2.toNat + 2 ^ 24 * c3.toNat := by
  have h0 := c0.toNat_lt
  have h1 := c1.toNat_lt
  have h2 := c2.toNat_lt
  simp only [Uint32LE, List.getD_cons_zero, List.getD_cons_succ]
  rw [or_shiftLeft_eq_add _ _ 8 h0, or_shiftLeft_eq_add _ _ 16 (by omega),
    or_shiftLeft_eq_add _ _ 24 (by omega)]
  omega

/-! ## The cursor only moves forward, within the buffer -/

theorem advances_refl (r : Reader) (h : r.i ≤ r.s.length) : r.advances r :=
  ⟨rfl, le_refl _, h⟩

theorem advances_trans {r r1 r2 : Reader} (h1 : r.advances r1) (h2 : r1.advances r2) :
    r.advances r2 := by
  obtain ⟨a1, a2, a3⟩ := h1
  obtain ⟨b1, b2, b3⟩ := h2
  refine ⟨by rw [b1, a1], by omega, ?_⟩
  rw [a1] at b3
  exact b3

theorem Read_advances (r : Reader) (k : Nat) (h : r.i ≤ r.s.length) :
    r.advances (r.Read k).2 := by
  unfold Reader.Read
  split
  · exact advances_refl r h
  · refine ⟨rfl, by simp, ?_⟩
    simp only [List.length_take, List.length_drop]
    omega

theorem ReadByte_advances (r : Reader) (h : r.i ≤ r.s.length) :
    r.advances r.ReadByte.2 := by
  unfold Reader.ReadByte
  split
  · exact advances_refl r h
  · exact ⟨rfl, by simp, by simp only; omega⟩

theorem ReadUvarintLoop_advances (fuel : Nat) : ∀ (i x s : Nat) (r : Reader),
    r.i ≤ r.s.length → r.advances (ReadUvarintLoop fuel i x s r).2 := by
  induction fuel with
  | zero => intro i x s r h; exact advances_refl r h
  | succ fuel ih =>
    intro i x s r h
    have hb := ReadByte_advances r h
    unfold ReadUvarintLoop
    generalize r.ReadByte = rb at hb
    obtain ⟨⟨b, e⟩, r1⟩ := rb
    cases e with
    | some e => exact hb
    | none =>
      simp only
      split
      · split <;> exact hb
      · exact advances_trans hb (ih _ _ _ r1 (by rw [hb.1]; exact hb.2.2))

theorem ReadUvarint_advances (r : Reader) (h : r.i ≤ r.s.length) :
    r.advances (ReadUvarint r).2 :=
  ReadUvarintLoop_advances 10 0 0 0 r h

theorem ReadAtLeastLoop_advances (k fuel : Nat) : ∀ (acc : List UInt8) (r : Reader),
    r.i ≤ r.s.length → r.advances (ReadAtLeastLoop k fuel acc r).2 := by
  induction fuel with
  | zero => intro acc r h; exact advances_refl r h
  | succ fuel ih =>
    intro acc r h
    unfold ReadAtLeastLoop
    split
    · have hb := Read_advances r (k - acc.length) h
      generalize r.Read (k - acc.length) = rb at hb
      obtain ⟨⟨got, e⟩, r1⟩ := rb
      cases e with
      | some e => exact hb
      | none => exact advances_trans hb (ih _ r1 (by rw [hb.1]; exact hb.2.2))
    · exact advances_refl r h

theorem ReadFull_advances (r : Reader) (k : Nat) (h : r.i ≤ r.s.length) :
    r.advances (ReadFull r k).2 := by
  have := ReadAtLeastLoop_advances k (k + 1) [] r h
  unfold ReadFull
  generalize ReadAtLeastLoop k (k + 1) [] r = rb at this
  obtain ⟨⟨acc, e⟩, r1⟩ := rb
  exact this

theorem getU8_advances (r : Reader) (h : r.i ≤ r.s.length) : r.advances (getU8 r).2 := by
  have hb := Read_advances r 1 h
  unfold getU8
  generalize r.Read 1 = rb at hb
  obtain ⟨⟨got, e⟩, r1⟩ := rb
  cases e with
  | some e => simp only; split <;> exact hb
  | none => exact hb

theorem getU32_advances (r : Reader) (h : r.i ≤ r.s.length) : r.advances (getU32 r).2 := by
  have hb := Read_advances r 4 h
  unfold getU32
  generalize r.Read 4 = rb at hb
  obtain ⟨⟨got, e⟩, r1⟩ := rb
  cases e with
  | some e => simp only; split <;> exact hb
  | none => exact hb

/-- What `getString` does when the length can be allocated. -/
theorem getString_returns (maxAlloc : Nat) (r : Reader) (h : r.i ≤ r.s.length)
    (hlen : (ReadUvarint r).1.2 = none → (ReadUvarint r).1.1 ≤ maxAlloc) :
    ∃ a r1, getString maxAlloc r = Run.ret (a, r1) ∧ r.advances r1 := by
  have hu := ReadUvarint_advances r h
  unfold getString
  generalize ReadUvarint r = ru at hu hlen
  obtain ⟨⟨n, e⟩, r1⟩ := ru
  cases e with
  | some e => exact ⟨_, _, rfl, hu⟩
  | none =>
    have hn : n ≤ maxAlloc := hlen rfl
    have hf := ReadFull_advances r1 n (by rw [hu.1]; exact hu.2.2)
    simp only [if_neg (not_lt.mpr hn)]
    generalize ReadFull r1 n = rf at hf
    obtain ⟨⟨p, e⟩, r2⟩ := rf
    cases e with
    | some e => exact ⟨_, _, rfl, advances_trans hu hf⟩
    | none => exact ⟨_, _, rfl, advances_trans hu hf⟩


/-- At the end of the buffer the varint reader fails. -/
theorem ReadUvarint_eof (r : Reader) (h : r.s.length ≤ r.i) : (ReadUvarint r).1.2 ≠ none := by
  simp [ReadUvarint, ReadUvarintLoop, Reader.ReadByte, h]

/-- The body parsers return whenever every `getString` they call does. -/
theorem body_returns (maxAlloc : Nat) (r : Reader)
    (ok : ∀ r1, r.advances r1 →
      ∃ a r2, getString maxAlloc r1 = Run.ret (a, r2) ∧ r1.advances r2)
    (h : r.i ≤ r.s.length) :
    (∃ a r2, parse_set maxAlloc r = Run.ret (a, r2) ∧ r.advances r2) ∧
    (∃ a r2, parse_get maxAlloc r = Run.ret (a, r2) ∧ r.advances r2) ∧
    (∃ a r2, parse_clear maxAlloc r = Run.ret (a, r2) ∧ r.advances r2) := by
  obtain ⟨⟨k, e⟩, r1, h1, a1⟩ := ok r (advances_refl r h)
  refine ⟨?_, ?_, ?_⟩
  · cases e with
    | some e => exact ⟨_, _, by simp only [parse_set, h1]; rfl, a1⟩
    | none =>
      obtain ⟨⟨v, e2⟩, r2, h2, a2⟩ := ok r1 a1
      cases e2 with
      | some e2 => exact ⟨_, _, by simp only [parse_set, h1, h2]; rfl, advances_trans a1 a2⟩
      | none => exact ⟨_, _, by simp only [parse_set, h1, h2]; rfl, advances_trans a1 a2⟩
  · cases e with
    | some e => exact ⟨_, _, by simp only [parse_get, h1]; rfl, a1⟩
    | none => exact ⟨_, _, by simp only [parse_get, h1]; rfl, a1⟩
  · cases e with
    | some e => exact ⟨_, _, by simp only [parse_clear, h1]; rfl, a1⟩
    | none => exact ⟨_, _, by simp only [parse_clear, h1]; rfl, a1⟩

/-- When no length varint that can be decoded in the buffer exceeds the
allocation bound, `parse` returns a pair and leaves the cursor within the
buffer. -/
theorem parse_returns_of_allocatable (maxAlloc : Nat) (buf : List UInt8)
    (hb : ∀ j, j < buf.length → (ReadUvarint { s := buf, i := j }).1.2 = none →
      (ReadUvarint { s := buf, i := j }).1.1 ≤ maxAlloc) :
    ∃ res r1, parse maxAlloc (NewReader buf) = Run.ret (res, r1) ∧
      r1.s = buf ∧ r1.i ≤ buf.length := by
  have ok : ∀ r1 : Reader, (NewReader buf).advances r1 →
      ∃ a r2, getString maxAlloc r1 = Run.ret (a, r2) ∧ r1.advances r2 := by
    intro r1 h1
    obtain ⟨hs, -, hi⟩ := h1
    have hs1 : r1.s = buf := hs
    have hi1 : r1.i ≤ buf.length := hi
    apply getString_returns maxAlloc r1 (by rw [hs1]; exact hi1)
    intro hnone
    by_cases hj : r1.i < buf.length
    · have := hb r1.i hj
      have e : ({ s := buf, i := r1.i } : Reader) = r1 := by
        cases r1; cases hs1; rfl
      rw [e] at this
      exact this hnone
    · exact absurd hnone (ReadUvarint_eof r1 (by rw [hs1]; omega))
  have h0 : (NewReader buf).i ≤ (NewReader buf).s.length := Nat.zero_le _
  have a1 := getU8_advances (NewReader buf) h0
  unfold parse
  generalize getU8 (NewReader buf) = g1 at a1
  obtain ⟨⟨b, e1⟩, d1⟩ := g1
  cases e1 with
  | some e1 => exact ⟨_, _, rfl, a1.1, a1.2.2⟩
  | none =>
    have a2 := getU32_advances d1 (by rw [a1.1]; exact a1.2.2)
    simp only
    generalize getU32 d1 = g2 at a2
    obtain ⟨⟨c, e2⟩, d2⟩ := g2
    have a12 := advances_trans a1 a2
    cases e2 with
    | some e2 => exact ⟨_, _, rfl, a12.1, a12.2.2⟩
    | none =>
      have ok2 : ∀ r1 : Reader, d2.advances r1 →
          ∃ a r2, getString maxAlloc r1 = Run.ret (a, r2) ∧ r1.advances r2 :=
        fun r1 h1 => ok r1 (advances_trans a12 h1)
      obtain ⟨⟨⟨cs, es⟩, rs, hs, as⟩, ⟨⟨cg, eg⟩, rg, hg, ag⟩, ⟨⟨cc, ec⟩, rc, hc, ac⟩⟩ :=
        body_returns maxAlloc d2 ok2 (by rw [a12.1]; exact a12.2.2)
      simp only [hs, hg, hc]
      split
      · exact ⟨_, _, rfl, (advances_trans a12 as).1, (advances_trans a12 as).2.2⟩
      · split
        · exact ⟨_, _, rfl, (advances_trans a12 ag).1, (advances_trans a12 ag).2.2⟩
        · split
          · exact ⟨_, _, rfl, (advances_trans a12 ac).1, (advances_trans a12 ac).2.2⟩
          · exact ⟨_, _, rfl, a12.1, a12.2.2⟩

/-- Decoding an encoded record: `parse` on `encode h0 c` returns the record of
the same kind and key, with the value for a Set and an empty value otherwise,
and no error. -/
theorem parseBytes_encode (maxAlloc : Nat) (h0 : UInt8) (c : CommandInfo)
    (hm : maxAlloc < 2 ^ 64) (hkind : c.Cmd ≠ Command.UnknownCommand)
    (hK : c.Key.length ≤ maxAlloc)
    (hV : c.Cmd = Command.SetCommand → c.Value.length ≤ maxAlloc) :
    parseBytes maxAlloc (encode h0 c)
      = Run.ret ({ Cmd := c.Cmd, Key := c.Key,
                   Value := if c.Cmd = Command.SetCommand then c.Value else [] }, none) := by
  obtain ⟨cmd, K, V⟩ := c
  cases cmd with
  | UnknownCommand => exact absurd rfl hkind
  | SetCommand =>
    have hs := parse_set_encoded maxAlloc hm
      { s := h0 :: 0 :: 0 :: 0 :: 0 :: (encodeString K ++ (encodeString V ++ [])), i := 5 }
      K V [] hK (hV rfl) rfl
    have hb : encode h0 { Cmd := Command.SetCommand, Key := K, Value := V }
        = h0 :: 0 :: 0 :: 0 :: 0 :: (encodeString K ++ (encodeString V ++ [])) := by
      simp [encode, u32le, Command.code]
    rw [hb, parseBytes, parse_dispatch]
    have hc : Uint32LE [0, 0, 0, 0] = 0 := by decide
    simp only [hc, if_true]
    revert hs
    cases parse_set maxAlloc _ with
    | panics => simp [Run.result]
    | ret a =>
      obtain ⟨⟨ci, e⟩, d⟩ := a
      simp only [Run.result, Run.ret.injEq, Prod.mk.injEq]
      intro hs
      exact ⟨hs.1, trivial⟩
  | GetCommand =>
    have hs := parse_get_encoded maxAlloc hm
      { s := h0 :: 1 :: 0 :: 0 :: 0 :: (encodeString K ++ []), i := 5 } K [] hK rfl
    have hb : encode h0 { Cmd := Command.GetCommand, Key := K, Value := V }
        = h0 :: 1 :: 0 :: 0 :: 0 :: (encodeString K ++ []) := by
      simp [encode, u32le, Command.code]
    rw [hb, parseBytes, parse_dispatch]
    have hc : Uint32LE [1, 0, 0, 0] = 1 := by decide
    simp only [hc, if_true, one_ne_zero, if_false]
    revert hs
    cases parse_get maxAlloc _ with
    | panics => simp [Run.result]
    | ret a =>
      obtain ⟨⟨ci, e⟩, d⟩ := a
      simp only [Run.result, Run.ret.injEq, Prod.mk.injEq]
      intro hs
      exact ⟨by rw [hs.1]; rfl, trivial⟩
  | ClearCommand =>
    have hs := parse_clear_encoded maxAlloc hm
      { s := h0 :: 2 :: 0 :: 0 :: 0 :: (encodeString K ++ []), i := 5 } K [] hK rfl
    have hb : encode h0 { Cmd := Command.ClearCommand, Key := K, Value := V }
        = h0 :: 2 :: 0 :: 0 :: 0 :: (encodeString K ++ []) := by
      simp [encode, u32le, Command.code]
    rw [hb, parseBytes, parse_dispatch]
    have hc : Uint32LE [2, 0, 0, 0] = 2 := by decide
    simp only [hc, if_true, OfNat.ofNat_ne_zero, OfNat.ofNat_ne_one, if_false]
    revert hs
    cases parse_clear maxAlloc _ with
    | panics => simp [Run.result]
    | ret a =>
      obtain ⟨⟨ci, e⟩, d⟩ := a
      simp only [Run.result, Run.ret.injEq, Prod.mk.injEq]
      intro hs
      exact ⟨by rw [hs.1]; rfl, trivial⟩

/-- The body parsers fix the kind of the record, and only `parse_set` can fill
the value. -/
theorem body_record_shape (maxAlloc : Nat) (r r1 : Reader) (ci : CommandInfo)
    (e : Option GoError) :
    (parse_set maxAlloc r = Run.ret ((ci, e), r1) → ci.Cmd = Command.SetCommand) ∧
    (parse_get maxAlloc r = Run.ret ((ci, e), r1) →
      ci.Cmd = Command.GetCommand ∧ ci.Value = []) ∧
    (parse_clear maxAlloc r = Run.ret ((ci, e), r1) →
      ci.Cmd = Command.ClearCommand ∧ ci.Value = []) := by
  refine ⟨?_, ?_, ?_⟩
  · intro h
    unfold parse_set at h
    split at h
    · cases h
    · cases h; rfl
    · simp only at h
      split at h
      · cases h
      · cases h; rfl
      · cases h; rfl
  · intro h
    unfold parse_get at h
    split at h
    · cases h
    · cases h; exact ⟨rfl, rfl⟩
    · cases h; exact ⟨rfl, rfl⟩
  · intro h
    unfold parse_clear at h
    split at h
    · cases h
    · cases h; exact ⟨rfl, rfl⟩
    · cases h; exact ⟨rfl, rfl⟩

/-- With fewer than `k` bytes left, `io.ReadFull` fails and leaves the cursor at
the end of the buffer. -/
theorem ReadFull_short (r : Reader) (k : Nat) (h : r.i ≤ r.s.length)
    (hshort : r.s.length - r.i < k) :
    ∃ buf e, ReadFull r k = ((buf, some e), { r with i := r.s.length }) := by
  by_cases hz : r.s.length ≤ r.i
  · have hi : r.i = r.s.length := by omega
    have hr : ({ r with i := r.s.length } : Reader) = r := by
      cases r; simp only at hi; subst hi; rfl
    rw [hr]
    have hk : 0 < k := by omega
    refine ⟨fillZero k [], GoError.EOF, ?_⟩
    simp [ReadFull, ReadAtLeastLoop, Reader.Read, hz, hk]
    omega
  · have hlt : r.i < r.s.length := by omega
    have hlen : ((r.s.drop r.i).take k).length = r.s.length - r.i := by
      simp only [List.length_take, List.length_drop]; omega
    have hpos : 0 < ((r.s.drop r.i).take k).length := by omega
    have hk : ((r.s.drop r.i).take k).length < k := by omega
    refine ⟨fillZero k ((r.s.drop r.i).take k), GoError.ErrUnexpectedEOF, ?_⟩
    have h1 : r.Read k = (((r.s.drop r.i).take k, none), { r with i := r.s.length }) := by
      rw [Read_of_lt r _ hlt]
      congr 2
      omega
    have h2 : ∀ m, ({ r with i := r.s.length } : Reader).Read m
        = (([], some GoError.EOF), { r with i := r.s.length }) := by
      intro m
      simp [Reader.Read]
    obtain ⟨k1, rfl⟩ : ∃ k1, k = k1 + 1 := ⟨k - 1, by omega⟩
    simp only [ReadFull, ReadAtLeastLoop, List.length_nil, Nat.zero_lt_succ, if_true,
      Nat.sub_zero, h1, List.nil_append, hk, h2, List.append_nil]
    rw [if_neg (by omega), if_pos ⟨hpos, trivial⟩]

/-- A reader that returned a length did not start beyond its buffer. -/
theorem ReadUvarint_ok_within (r r1 : Reader) (n : Nat)
    (hu : ReadUvarint r = ((n, none), r1)) : r.i ≤ r.s.length := by
  by_contra hc
  have := ReadUvarint_eof r (by omega)
  rw [hu] at this
  exact this rfl

/-- Whatever `getString` does, the cursor stays within the buffer: on return
it is the returned cursor, on a panic it is the cursor after the varint. -/
theorem getString_advances (maxAlloc : Nat) (r : Reader) (h : r.i ≤ r.s.length) :
    match getString maxAlloc r with
    | Run.ret (_, r1) => r.advances r1
    | Run.panics => r.advances (ReadUvarint r).2 := by
  have hu := ReadUvarint_advances r h
  unfold getString
  generalize ReadUvarint r = ru at hu
  obtain ⟨⟨n, e⟩, r1⟩ := ru
  cases e with
  | some e => exact hu
  | none =>
    simp only
    split
    · next hp =>
      split at hp
      · cases hp
      · have hf := ReadFull_advances r1 n (by rw [hu.1]; exact hu.2.2)
        generalize ReadFull r1 n = rf at hf hp
        obtain ⟨⟨p, e⟩, r2⟩ := rf
        cases e with
        | some e => cases hp; exact advances_trans hu hf
        | none => cases hp; exact advances_trans hu hf
    · exact hu

theorem getString_ret_advances (maxAlloc : Nat) (r r1 : Reader) (h : r.i ≤ r.s.length)
    (a : List UInt8 × Option GoError) (hg : getString maxAlloc r = Run.ret (a, r1)) :
    r.advances r1 := by
  have := getString_advances maxAlloc r h
  rw [hg] at this
  exact this

/-- The body parsers leave the cursor within the buffer, at or after where they
found it. -/
theorem body_advances (maxAlloc : Nat) (r : Reader) (h : r.i ≤ r.s.length) :
    (∀ a r1, parse_set maxAlloc r = Run.ret (a, r1) → r.advances r1) ∧
    (∀ a r1, parse_get maxAlloc r = Run.ret (a, r1) → r.advances r1) ∧
    (∀ a r1, parse_clear maxAlloc r = Run.ret (a, r1) → r.advances r1) := by
  refine ⟨?_, ?_, ?_⟩
  · intro a r1 hp
    unfold parse_set at hp
    split at hp
    · cases hp
    · next hg => cases hp; exact getString_ret_advances maxAlloc r _ h _ hg
    · next hg =>
      have a1 := getString_ret_advances maxAlloc r _ h _ hg
      simp only at hp
      split at hp
      · cases hp
      · next hg2 =>
        cases hp
        exact advances_trans a1
          (getString_ret_advances maxAlloc _ _ (by rw [a1.1]; exact a1.2.2) _ hg2)
      · next hg2 =>
        cases hp
        exact advances_trans a1
          (getString_ret_advances maxAlloc _ _ (by rw [a1.1]; exact a1.2.2) _ hg2)
  · intro a r1 hp
    unfold parse_get at hp
    split at hp
    · cases hp
    · next hg => cases hp; exact getString_ret_advances maxAlloc r _ h _ hg
    · next hg => cases hp; exact getString_ret_advances maxAlloc r _ h _ hg
  · intro a r1 hp
    unfold parse_clear at hp
    split at hp
    · cases hp
    · next hg => cases hp; exact getString_ret_advances maxAlloc r _ h _ hg
    · next hg => cases hp; exact getString_ret_advances maxAlloc r _ h _ hg

/-- The dispatcher leaves the cursor within the buffer, at or after where it
found it. -/
theorem parse_advances (maxAlloc : Nat) (r : Reader) (h : r.i ≤ r.s.length) :
    ∀ res r1, parse maxAlloc r = Run.ret (res, r1) → r.advances r1 := by
  intro res r1 hp
  have a1 := getU8_advances r h
  unfold parse at hp
  generalize getU8 r = g1 at a1 hp
  obtain ⟨⟨b, e1⟩, d1⟩ := g1
  cases e1 with
  | some e1 => cases hp; exact a1
  | none =>
    have a2 := getU32_advances d1 (by rw [a1.1]; exact a1.2.2)
    simp only at hp
    generalize getU32 d1 = g2 at a2 hp
    obtain ⟨⟨c, e2⟩, d2⟩ := g2
    have a12 := advances_trans a1 a2
    cases e2 with
    | some e2 => cases hp; exact a12
    | none =>
      obtain ⟨hs, hg, hc⟩ := body_advances maxAlloc d2 (by rw [a12.1]; exact a12.2.2)
      simp only at hp
      split at hp
      · generalize hq : parse_set maxAlloc d2 = q at hp
        cases q with
        | panics => cases hp
        | ret a => obtain ⟨⟨ci, e⟩, d3⟩ := a; cases hp; exact advances_trans a12 (hs _ _ hq)
      · split at hp
        · generalize hq : parse_get maxAlloc d2 = q at hp
          cases q with
          | panics => cases hp
          | ret a => obtain ⟨⟨ci, e⟩, d3⟩ := a; cases hp; exact advances_trans a12 (hg _ _ hq)
        · split at hp
          · generalize hq : parse_clear maxAlloc d2 = q at hp
            cases q with
            | panics => cases hp
            | ret a => obtain ⟨⟨ci, e⟩, d3⟩ := a; cases hp; exact advances_trans a12 (hc _ _ hq)
          · cases hp; exact a12

/-- At the end of the buffer `getString` fails with `io.EOF` on the length. -/
theorem getString_at_end (maxAlloc : Nat) (r : Reader) (h : r.s.length ≤ r.i) :
    getString maxAlloc r = Run.ret (([], some GoError.EOF), r) := by
  simp [getString, ReadUvarint, ReadUvarintLoop, Reader.ReadByte, h]

/-- At the end of the buffer each body parser returns its empty record and
`io.EOF`. -/
theorem body_at_end (maxAlloc : Nat) (r : Reader) (h : r.s.length ≤ r.i) :
    parse_set maxAlloc r
      = Run.ret (({ Cmd := Command.SetCommand, Key := [], Value := [] }, some GoError.EOF), r) ∧
    parse_get maxAlloc r
      = Run.ret (({ Cmd := Command.GetCommand, Key := [], Value := [] }, some GoError.EOF), r) ∧
    parse_clear maxAlloc r
      = Run.ret (({ Cmd := Command.ClearCommand, Key := [], Value := [] }, some GoError.EOF), r) := by
  simp [parse_set, parse_get, parse_clear, getString_at_end maxAlloc r h]

theorem and_0x7f (b : Nat) : b &&& 0x7f = b % 128 := by
  have := Nat.and_pow_two_sub_one_eq_mod b 7
  norm_num at this ⊢
  exact this

/-- The decoding loop on any terminating LEB128 sequence `e`, entered at
iteration `i` with the low `7 * i` bits in `x`: if the total stays below
`2 ^ 64` it returns `x + value(e) * 2 ^ (7 * i)` and stops right after `e`. -/
theorem ReadUvarintLoop_leb128 (e : List UInt8) :
    ∀ (fuel i x : Nat) (r : Reader) (rest : List UInt8),
    leb128Terminated e = true → e.length ≤ fuel → i + e.length ≤ 10 →
    x < 2 ^ (7 * i) → x + leb128Value e * 2 ^ (7 * i) < 2 ^ 64 →
    r.s.drop r.i = e ++ rest →
    ReadUvarintLoop fuel i x (7 * i) r =
      ((x + leb128Value e * 2 ^ (7 * i), none), { r with i := r.i + e.length }) := by
  induction e with
  | nil => intro fuel i x r rest ht; simp [leb128Terminated] at ht
  | cons b tl ih =>
    intro fuel i x r rest ht hf hi hx htot hd
    obtain ⟨fuel, rfl⟩ : ∃ f, fuel = f + 1 := ⟨fuel - 1, by simp at hf; omega⟩
    obtain ⟨hrb, hd1⟩ := ReadByte_of_drop r b (tl ++ rest) (by simpa using hd)
    cases tl with
    | nil =>
      have hb : b.toNat < 128 := by simpa [leb128Terminated] using ht
      have hv : leb128Value [b] = b.toNat := by
        simp only [leb128Value]; omega
      rw [hv] at htot ⊢
      have hb2 : b.toNat * 2 ^ (7 * i) < 2 ^ 64 := by omega
      have h9 : ¬ (i = 9 ∧ b.toNat > 1) := by
        rintro ⟨rfl, hgt⟩
        have : 2 * 2 ^ (7 * 9) ≤ b.toNat * 2 ^ (7 * 9) := Nat.mul_le_mul_right _ hgt
        norm_num at this hb2
        omega
      simp only [ReadUvarintLoop, hrb, List.length_singleton]
      rw [if_pos hb, if_neg h9, or_shift _ _ _ hx hb2]
    | cons c tl2 =>
      have hbt : 128 ≤ b.toNat ∧ leb128Terminated (c :: tl2) = true := by
        simpa [leb128Terminated] using ht
      have e7 : (2:Nat) ^ (7 * (i + 1)) = 2 ^ (7 * i) * 128 := by
        rw [Nat.mul_add, pow_add]; norm_num
      have hv : leb128Value (b :: c :: tl2) = b.toNat % 128 + 128 * leb128Value (c :: tl2) := rfl
      have hsum : x + b.toNat % 128 * 2 ^ (7 * i) + leb128Value (c :: tl2) * 2 ^ (7 * (i + 1))
          = x + leb128Value (b :: c :: tl2) * 2 ^ (7 * i) := by
        rw [hv, e7]; ring
      have hlow : b.toNat % 128 * 2 ^ (7 * i) < 2 ^ 64 := by
        have : b.toNat % 128 * 2 ^ (7 * i) ≤ leb128Value (b :: c :: tl2) * 2 ^ (7 * i) :=
          Nat.mul_le_mul_right _ (by rw [hv]; omega)
        omega
      have hx1 : x + b.toNat % 128 * 2 ^ (7 * i) < 2 ^ (7 * (i + 1)) := by
        rw [e7]
        have : b.toNat % 128 < 128 := Nat.mod_lt _ (by norm_num)
        nlinarith
      have := ih fuel (i + 1) (x + b.toNat % 128 * 2 ^ (7 * i)) { r with i := r.i + 1 } rest
        hbt.2 (by simp at hf ⊢; omega) (by simp at hi ⊢; omega) hx1 (by rw [hsum]; exact htot)
        (by simpa using hd1)
      simp only [ReadUvarintLoop, hrb]
      rw [if_neg (by omega), and_0x7f, or_shift _ _ _ hx hlow]
      have e77 : 7 * i + 7 = 7 * (i + 1) := by ring
      rw [e77, this, hsum]
      simp only [List.length_cons, Nat.add_assoc, Nat.add_comm 1]

/-- The reader on any encoding `e` of `n < 2 ^ 64` of at most 10 bytes. -/
theorem ReadUvarint_leb128 (e : List UInt8) (n : Nat) (he : lengthPrefix e n)
    (hn : n < 2 ^ 64) (r : Reader) (rest : List UInt8) (hd : r.s.drop r.i = e ++ rest) :
    ReadUvarint r = ((n, none), { r with i := r.i + e.length }) := by
  obtain ⟨ht, hl, hv⟩ := he
  have := ReadUvarintLoop_leb128 e 10 0 0 r rest ht hl (by omega) (by norm_num)
    (by rw [hv]; simpa using hn) hd
  rw [hv] at this
  simpa [ReadUvarint] using this

/-- The string reader on a field whose length prefix is any LEB128 encoding. -/
theorem getString_leb128 (maxAlloc : Nat) (r : Reader) (e p rest : List UInt8)
    (he : lengthPrefix e p.length) (hn : p.length < 2 ^ 64) (ha : p.length ≤ maxAlloc)
    (hd : r.s.drop r.i = e ++ (p ++ rest)) :
    getString maxAlloc r = Run.ret ((p, none), { r with i := r.i + e.length + p.length }) := by
  have h1 := ReadUvarint_leb128 e p.length he hn r (p ++ rest) hd
  have hd2 : (r.s.drop (r.i + e.length)) = p ++ rest := by
    rw [← List.drop_drop, hd, List.drop_left]
  have h2 := ReadFull_exact { r with i := r.i + e.length } p rest hd2
  simp only [getString, h1, h2]
  rw [if_neg (by omega)]

/-- The body parsers on well-formed fields with any LEB128 length prefixes,
followed by arbitrary bytes. -/
theorem body_valid (maxAlloc : Nat) (hm : maxAlloc < 2 ^ 64) (r : Reader)
    (eK K rest : List UInt8) (hK : lengthPrefix eK K.length) (hKa : K.length ≤ maxAlloc)
    (hd : r.s.drop r.i = eK ++ (K ++ rest)) :
    (parse_get maxAlloc r).result
      = Run.ret ({ Cmd := Command.GetCommand, Key := K, Value := [] }, none) ∧
    (parse_clear maxAlloc r).result
      = Run.ret ({ Cmd := Command.ClearCommand, Key := K, Value := [] }, none) ∧
    (∀ eV V rest2 : List UInt8, lengthPrefix eV V.length → V.length ≤ maxAlloc →
      rest = eV ++ (V ++ rest2) →
      (parse_set maxAlloc r).result
        = Run.ret ({ Cmd := Command.SetCommand, Key := K, Value := V }, none)) := by
  have h1 := getString_leb128 maxAlloc r eK K rest hK (by omega) hKa hd
  refine ⟨by simp [parse_get, h1, Run.result], by simp [parse_clear, h1, Run.result], ?_⟩
  intro eV V rest2 hV hVa hrest
  have hd2 : (r.s.drop (r.i + eK.length + K.length)) = eV ++ (V ++ rest2) := by
    rw [Nat.add_assoc, ← List.drop_drop, hd, ← List.append_assoc, List.drop_left' (by simp),
      hrest]
  have h2 := getString_leb128 maxAlloc { r with i := r.i + eK.length + K.length } eV V rest2
    hV (by omega) hVa hd2
  simp [parse_set, h1, h2, Run.result]

/-- The result of `parse` on a buffer of at least five bytes, in terms of the
results of the body parsers. -/
theorem parseBytes_dispatch (maxAlloc : Nat) (h c0 c1 c2 c3 : UInt8) (body : List UInt8) :
    parseBytes maxAlloc (h :: c0 :: c1 :: c2 :: c3 :: body) =
      (let d2 : Reader := { s := h :: c0 :: c1 :: c2 :: c3 :: body, i := 5 }
       let command := Uint32LE [c0, c1, c2, c3]
       if command = 0 then
         match (parse_set maxAlloc d2).result with
         | Run.panics => Run.panics
         | Run.ret (ci, _) => Run.ret (ci, none)
       else if command = 1 then
         match (parse_get maxAlloc d2).result with
         | Run.panics => Run.panics
         | Run.ret (ci, _) => Run.ret (ci, none)
       else if command = 2 then
         match (parse_clear maxAlloc d2).result with
         | Run.panics => Run.panics
         | Run.ret (ci, _) => Run.ret (ci, none)
       else
         Run.ret ({ Cmd := Command.UnknownCommand, Key := [], Value := [] },
           some GoError.unknownCommand)) := by
  rw [parseBytes, parse_dispatch]
  simp only
  split
  · cases parse_set maxAlloc _ with
    | panics => rfl
    | ret a => obtain ⟨⟨ci, e⟩, d⟩ := a; rfl
  · split
    · cases parse_get maxAlloc _ with
      | panics => rfl
      | ret a => obtain ⟨⟨ci, e⟩, d⟩ := a; rfl
    · split
      · cases parse_clear maxAlloc _ with
        | panics => rfl
        | ret a => obtain ⟨⟨ci, e⟩, d⟩ := a; rfl
      · rfl

/-- Decoding a well-formed buffer, with any LEB128 length prefixes, followed by
arbitrary bytes `rest`. -/
theorem parseBytes_valid (maxAlloc : Nat) (hm : maxAlloc < 2 ^ 64) (h : UInt8)
    (eK K rest : List UInt8) (hK : lengthPrefix eK K.length) (hKa : K.length ≤ maxAlloc) :
    parseBytes maxAlloc (h :: 1 :: 0 :: 0 :: 0 :: (eK ++ (K ++ rest)))
      = Run.ret ({ Cmd := Command.GetCommand, Key := K, Value := [] }, none) ∧
    parseBytes maxAlloc (h :: 2 :: 0 :: 0 :: 0 :: (eK ++ (K ++ rest)))
      = Run.ret ({ Cmd := Command.ClearCommand, Key := K, Value := [] }, none) ∧
    (∀ eV V rest2 : List UInt8, lengthPrefix eV V.length → V.length ≤ maxAlloc →
      rest = eV ++ (V ++ rest2) →
      parseBytes maxAlloc (h :: 0 :: 0 :: 0 :: 0 :: (eK ++ (K ++ rest)))
        = Run.ret ({ Cmd := Command.SetCommand, Key := K, Value := V }, none)) := by
  have c0 : Uint32LE [0, 0, 0, 0] = 0 := by decide
  have c1 : Uint32LE [1, 0, 0, 0] = 1 := by decide
  have c2 : Uint32LE [2, 0, 0, 0] = 2 := by decide
  refine ⟨?_, ?_, ?_⟩
  · obtain ⟨hg, -, -⟩ := body_valid maxAlloc hm
      { s := h :: 1 :: 0 :: 0 :: 0 :: (eK ++ (K ++ rest)), i := 5 } eK K rest hK hKa rfl
    rw [parseBytes_dispatch]
    simp only [c1, one_ne_zero, if_false, if_true, hg]
  · obtain ⟨-, hc, -⟩ := body_valid maxAlloc hm
      { s := h :: 2 :: 0 :: 0 :: 0 :: (eK ++ (K ++ rest)), i := 5 } eK K rest hK hKa rfl
    rw [parseBytes_dispatch]
    simp only [c2, OfNat.ofNat_ne_zero, OfNat.ofNat_ne_one, if_false, if_true, hc]
  · intro eV V rest2 hV hVa hrest
    obtain ⟨-, -, hs⟩ := body_valid maxAlloc hm
      { s := h :: 0 :: 0 :: 0 :: 0 :: (eK ++ (K ++ rest)), i := 5 } eK K rest hK hKa rfl
    rw [parseBytes_dispatch]
    simp only [c0, if_true, hs eV V rest2 hV hVa hrest]

/-- The minimal encoding is one of the LEB128 encodings the reader accepts. -/
theorem uvarintAux_leb128 (k : Nat) : ∀ m : Nat, m < 2 ^ (7 * (k + 1)) →
    leb128Terminated (uvarintAux k m) = true ∧ (uvarintAux k m).length ≤ k + 1 ∧
      leb128Value (uvarintAux k m) = m := by
  induction k with
  | zero =>
    intro m hm
    have hm' : m < 128 := by simpa using hm
    have hb := toNat_ofNat_lt m (by omega)
    simp only [uvarintAux, leb128Terminated, leb128Value, hb, List.length_singleton]
    refine ⟨by simpa using hm', by omega, by omega⟩
  | succ k ih =>
    intro m hm
    by_cases hs : m < 0x80
    · have hb := toNat_ofNat_lt m (by omega)
      simp only [uvarintAux, if_pos hs, leb128Terminated, leb128Value, hb, List.length_singleton]
      refine ⟨by simpa using hs, by omega, by omega⟩
    · have hb := toNat_ofNat_lt (m % 128 + 128) (by omega)
      have hdiv : m / 128 < 2 ^ (7 * (k + 1)) := by
        rw [Nat.div_lt_iff_lt_mul (by norm_num)]
        have e : (2:Nat) ^ (7 * (k + 1 + 1)) = 2 ^ (7 * (k + 1)) * 128 := by
          rw [Nat.mul_add 7 (k + 1) 1, pow_add]; norm_num
        rw [← e]; exact hm
      obtain ⟨t1, t2, t3⟩ := ih (m / 128) hdiv
      simp only [uvarintAux, if_neg hs]
      generalize uvarintAux k (m / 128) = tl at t1 t2 t3
      cases tl with
      | nil => simp [leb128Terminated] at t1
      | cons c tl2 =>
        refine ⟨?_, by simp at t2 ⊢; omega, ?_⟩
        · simp only [leb128Terminated, hb, t1, Bool.and_true, decide_eq_true_eq]
          omega
        · simp only [leb128Value, hb] at t3 ⊢
          rw [t3]
          omega

theorem uvarint_lengthPrefix (n : Nat) (hn : n < 2 ^ 64) : lengthPrefix (uvarint n) n := by
  have := uvarintAux_leb128 9 n (lt_of_lt_of_le hn (by norm_num))
  exact this

/-! ## Reading depends only on the bytes from the cursor on -/

theorem sameFrom_step {r r1 : Reader} (h : r.sameFrom r1) (n : Nat) :
    ({ r with i := r.i + n } : Reader).sameFrom { r1 with i := r1.i + n } := by
  obtain ⟨hi, hl, hd⟩ := h
  refine ⟨by simp only; omega, hl, ?_⟩
  simp only
  rw [← List.drop_drop, ← List.drop_drop, hd]

theorem Read_sameFrom {r r1 : Reader} (h : r.sameFrom r1) (k : Nat) :
    (r.Read k).1 = (r1.Read k).1 ∧ (r.Read k).2.sameFrom (r1.Read k).2 := by
  have hs := sameFrom_step h
  obtain ⟨hi, hl, hd⟩ := h
  unfold Reader.Read
  by_cases hz : r.i ≥ r.s.length
  · rw [if_pos hz, if_pos (by omega)]
    exact ⟨rfl, hi, hl, hd⟩
  · rw [if_neg hz, if_neg (by omega)]
    simp only [hd]
    exact ⟨trivial, hs _⟩

theorem getD_eq_drop (l : List UInt8) (i : Nat) : l.getD i 0 = (l.drop i).getD 0 0 := by
  simp [List.getD_eq_getElem?_getD, List.getElem?_drop]

theorem ReadByte_sameFrom {r r1 : Reader} (h : r.sameFrom r1) :
    r.ReadByte.1 = r1.ReadByte.1 ∧ r.ReadByte.2.sameFrom r1.ReadByte.2 := by
  have hs := sameFrom_step h 1
  obtain ⟨hi, hl, hd⟩ := h
  unfold Reader.ReadByte
  by_cases hz : r.i ≥ r.s.length
  · rw [if_pos hz, if_pos (by omega)]
    exact ⟨rfl, hi, hl, hd⟩
  · rw [if_neg hz, if_neg (by omega)]
    simp only [getD_eq_drop r.s, getD_eq_drop r1.s, hd]
    exact ⟨trivial, hs⟩

theorem ReadUvarintLoop_sameFrom (fuel : Nat) : ∀ (i x s : Nat) (r r1 : Reader),
    r.sameFrom r1 →
    (ReadUvarintLoop fuel i x s r).1 = (ReadUvarintLoop fuel i x s r1).1 ∧
      (ReadUvarintLoop fuel i x s r).2.sameFrom (ReadUvarintLoop fuel i x s r1).2 := by
  induction fuel with
  | zero => intro i x s r r1 h; exact ⟨rfl, h⟩
  | succ fuel ih =>
    intro i x s r r1 h
    obtain ⟨hv, hr⟩ := ReadByte_sameFrom h
    unfold ReadUvarintLoop
    generalize r.ReadByte = rb at hv hr
    generalize r1.ReadByte = rb1 at hv hr
    obtain ⟨⟨b, e⟩, d⟩ := rb
    obtain ⟨⟨b1, e1⟩, d1⟩ := rb1
    simp only at hv hr
    cases hv
    cases e with
    | some e => exact ⟨rfl, hr⟩
    | none =>
      simp only
      split
      · split <;> exact ⟨rfl, hr⟩
      · exact ih _ _ _ d d1 hr

theorem ReadAtLeastLoop_sameFrom (k fuel : Nat) : ∀ (acc : List UInt8) (r r1 : Reader),
    r.sameFrom r1 →
    (ReadAtLeastLoop k fuel acc r).1 = (ReadAtLeastLoop k fuel acc r1).1 ∧
      (ReadAtLeastLoop k fuel acc r).2.sameFrom (ReadAtLeastLoop k fuel acc r1).2 := by
  induction fuel with
  | zero => intro acc r r1 h; exact ⟨rfl, h⟩
  | succ fuel ih =>
    intro acc r r1 h
    unfold ReadAtLeastLoop
    split
    · obtain ⟨hv, hr⟩ := Read_sameFrom h (k - acc.length)
      generalize r.Read (k - acc.length) = rb at hv hr
      generalize r1.Read (k - acc.length) = rb1 at hv hr
      obtain ⟨⟨b, e⟩, d⟩ := rb
      obtain ⟨⟨b1, e1⟩, d1⟩ := rb1
      simp only at hv hr
      cases hv
      cases e with
      | some e => exact ⟨rfl, hr⟩
      | none => exact ih _ d d1 hr
    · exact ⟨rfl, h⟩

theorem ReadFull_sameFrom {r r1 : Reader} (h : r.sameFrom r1) (k : Nat) :
    (ReadFull r k).1 = (ReadFull r1 k).1 ∧ (ReadFull r k).2.sameFrom (ReadFull r1 k).2 := by
  obtain ⟨hv, hr⟩ := ReadAtLeastLoop_sameFrom k (k + 1) [] r r1 h
  unfold ReadFull
  generalize ReadAtLeastLoop k (k + 1) [] r = rb at hv hr
  generalize ReadAtLeastLoop k (k + 1) [] r1 = rb1 at hv hr
  obtain ⟨⟨b, e⟩, d⟩ := rb
  obtain ⟨⟨b1, e1⟩, d1⟩ := rb1
  simp only at hv hr
  cases hv
  exact ⟨rfl, hr⟩

theorem getU32_sameFrom {r r1 : Reader} (h : r.sameFrom r1) :
    (getU32 r).1 = (getU32 r1).1 ∧ (getU32 r).2.sameFrom (getU32 r1).2 := by
  obtain ⟨hv, hr⟩ := Read_sameFrom h 4
  unfold getU32
  generalize r.Read 4 = rb at hv hr
  generalize r1.Read 4 = rb1 at hv hr
  obtain ⟨⟨b, e⟩, d⟩ := rb
  obtain ⟨⟨b1, e1⟩, d1⟩ := rb1
  simp only at hv hr
  cases hv
  cases e with
  | some e => simp only; split <;> exact ⟨rfl, hr⟩
  | none => exact ⟨rfl, hr⟩

/-- On cursors that agree from the position on, `getString` either panics on
both or returns the same string and error on both. -/
theorem getString_sameFrom (maxAlloc : Nat) {r r1 : Reader} (h : r.sameFrom r1) :
    (getString maxAlloc r = Run.panics ∧ getString maxAlloc r1 = Run.panics) ∨
    ∃ a d d1, getString maxAlloc r = Run.ret (a, d) ∧ getString maxAlloc r1 = Run.ret (a, d1) ∧
      d.sameFrom d1 := by
  obtain ⟨hv, hr⟩ := ReadUvarintLoop_sameFrom 10 0 0 0 r r1 h
  unfold getString ReadUvarint
  generalize ReadUvarintLoop 10 0 0 0 r = rb at hv hr
  generalize ReadUvarintLoop 10 0 0 0 r1 = rb1 at hv hr
  obtain ⟨⟨n, e⟩, d⟩ := rb
  obtain ⟨⟨n1, e1⟩, d1⟩ := rb1
  simp only at hv hr
  cases hv
  cases e with
  | some e => exact Or.inr ⟨_, _, _, rfl, rfl, hr⟩
  | none =>
    simp only
    by_cases hbig : n > maxAlloc
    · rw [if_pos hbig, if_pos hbig]
      exact Or.inl ⟨rfl, rfl⟩
    · rw [if_neg hbig, if_neg hbig]
      obtain ⟨hv2, hr2⟩ := ReadFull_sameFrom hr n
      generalize ReadFull d n = rf at hv2 hr2
      generalize ReadFull d1 n = rf1 at hv2 hr2
      obtain ⟨⟨p, e⟩, d2⟩ := rf
      obtain ⟨⟨p1, e1⟩, d3⟩ := rf1
      simp only at hv2 hr2
      cases hv2
      cases e with
      | some e => exact Or.inr ⟨_, _, _, rfl, rfl, hr2⟩
      | none => exact Or.inr ⟨_, _, _, rfl, rfl, hr2⟩

/-- On cursors that agree from the position on, each body parser has the same
result. -/
theorem body_sameFrom (maxAlloc : Nat) {r r1 : Reader} (h : r.sameFrom r1) :
    (parse_set maxAlloc r).result = (parse_set maxAlloc r1).result ∧
    (parse_get maxAlloc r).result = (parse_get maxAlloc r1).result ∧
    (parse_clear maxAlloc r).result = (parse_clear maxAlloc r1).result := by
  rcases getString_sameFrom maxAlloc h with ⟨hp, hp1⟩ | ⟨⟨k, e⟩, d, d1, hg, hg1, hr⟩
  · simp [parse_set, parse_get, parse_clear, hp, hp1]
  · cases e with
    | some e => simp [parse_set, parse_get, parse_clear, hg, hg1, Run.result]
    | none =>
      refine ⟨?_, by simp [parse_get, hg, hg1, Run.result],
        by simp [parse_clear, hg, hg1, Run.result]⟩
      rcases getString_sameFrom maxAlloc hr with ⟨hp, hp1⟩ | ⟨⟨v, e2⟩, d2, d3, hg2, hg3, -⟩
      · simp [parse_set, hg, hg1, hp, hp1]
      · cases e2 <;> simp [parse_set, hg, hg1, hg2, hg3, Run.result]

/-- The result of `parse` on a non-empty buffer, in terms of what follows the
header byte. -/
theorem parseBytes_cons (maxAlloc : Nat) (h : UInt8) (tl : List UInt8) :
    parseBytes maxAlloc (h :: tl) =
      (match getU32 { s := h :: tl, i := 1 } with
       | ((_, some err), _) =>
         Run.ret ({ Cmd := Command.UnknownCommand, Key := [], Value := [] }, some err)
       | ((command, none), d2) =>
         if command = 0 then
           match (parse_set maxAlloc d2).result with
           | Run.panics => Run.panics
           | Run.ret (ci, _) => Run.ret (ci, none)
         else if command = 1 then
           match (parse_get maxAlloc d2).result with
           | Run.panics => Run.panics
           | Run.ret (ci, _) => Run.ret (ci, none)
         else if command = 2 then
           match (parse_clear maxAlloc d2).result with
           | Run.panics => Run.panics
           | Run.ret (ci, _) => Run.ret (ci, none)
         else
           Run.ret ({ Cmd := Command.UnknownCommand, Key := [], Value := [] },
             some GoError.unknownCommand)) := by
  have hg8 : getU8 (NewReader (h :: tl)) = ((h, none), { s := h :: tl, i := 1 }) := by
    simp [getU8, NewReader, Reader.Read, fillZero]
  simp only [parseBytes, parse, hg8]
  generalize getU32 { s := h :: tl, i := 1 } = g
  obtain ⟨⟨c, e⟩, d2⟩ := g
  cases e with
  | some e => rfl
  | none =>
    simp only
    split
    · cases parse_set maxAlloc d2 with
      | panics => rfl
      | ret a => obtain ⟨⟨ci, e⟩, d⟩ := a; rfl
    · split
      · cases parse_get maxAlloc d2 with
        | panics => rfl
        | ret a => obtain ⟨⟨ci, e⟩, d⟩ := a; rfl
      · split
        · cases parse_clear maxAlloc d2 with
          | panics => rfl
          | ret a => obtain ⟨⟨ci, e⟩, d⟩ := a; rfl
        · rfl

/-! ## Claims -/

/-- C1: decoding undoes encoding.  For every header byte `h`, key `K` and value
`V` whose lengths `make` can allocate, the buffer `[h] ++ u32le(code) ++
uvarint(len K) ++ K` (followed by `uvarint(len V) ++ V` for a Set), with code
0 = Set, 1 = Get, 2 = Clear, is parsed with no error into the record of that
kind with `Key = K`, and `Value = V` for Set, empty for Get and Clear. -/
theorem parse_decodes_encoded (maxAlloc : Nat) (h : UInt8) (K V : List UInt8)
    (hm : maxAlloc < 2 ^ 64) (hK : K.length ≤ maxAlloc) (hV : V.length ≤ maxAlloc) :
    parseBytes maxAlloc ([h] ++ u32le 0 ++ uvarint K.length ++ K ++ uvarint V.length ++ V)
        = Run.ret ({ Cmd := Command.SetCommand, Key := K, Value := V }, none) ∧
    parseBytes maxAlloc ([h] ++ u32le 1 ++ uvarint K.length ++ K)
        = Run.ret ({ Cmd := Command.GetCommand, Key := K, Value := [] }, none) ∧
    parseBytes maxAlloc ([h] ++ u32le 2 ++ uvarint K.length ++ K)
        = Run.ret ({ Cmd := Command.ClearCommand, Key := K, Value := [] }, none) := by
  have hs := parseBytes_encode maxAlloc h { Cmd := Command.SetCommand, Key := K, Value := V }
    hm (fun hk => by cases hk) hK (fun _ => hV)
  have hg := parseBytes_encode maxAlloc h { Cmd := Command.GetCommand, Key := K, Value := [] }
    hm (fun hk => by cases hk) hK (fun hc => by cases hc)
  have hc := parseBytes_encode maxAlloc h { Cmd := Command.ClearCommand, Key := K, Value := [] }
    hm (fun hk => by cases hk) hK (fun hc => by cases hc)
  simp only [encode, encodeString, Command.code, if_true, reduceCtorEq, if_false,
    List.append_nil, List.append_assoc] at hs hg hc
  simp only [List.append_assoc]
  exact ⟨hs, hg, hc⟩

/-- C1 at a concrete input: header 1, key "foo", value "bar", with the largest
allocation bound a 64-bit platform can have. -/
theorem parse_decodes_encoded_witness :
    (2 ^ 63 - 1 < 2 ^ 64 ∧ [102, 111, 111].length ≤ 2 ^ 63 - 1 ∧ [98, 97, 114].length ≤ 2 ^ 63 - 1) ∧
    (parseBytes (2 ^ 63 - 1)
        ([1] ++ u32le 0 ++ uvarint [102, 111, 111].length ++ [102, 111, 111]
          ++ uvarint [98, 97, 114].length ++ [98, 97, 114])
        = Run.ret ({ Cmd := Command.SetCommand, Key := [102, 111, 111],
                     Value := [98, 97, 114] }, none) ∧
     parseBytes (2 ^ 63 - 1) ([1] ++ u32le 1 ++ uvarint [102, 111, 111].length ++ [102, 111, 111])
        = Run.ret ({ Cmd := Command.GetCommand, Key := [102, 111, 111], Value := [] }, none) ∧
     parseBytes (2 ^ 63 - 1) ([1] ++ u32le 2 ++ uvarint [102, 111, 111].length ++ [102, 111, 111])
        = Run.ret ({ Cmd := Command.ClearCommand, Key := [102, 111, 111], Value := [] }, none)) :=
  ⟨⟨by decide, by decide, by decide⟩,
    parse_decodes_encoded (2 ^ 63 - 1) 1 [102, 111, 111] [98, 97, 114]
      (by decide) (by decide) (by decide)⟩

/-- C2, as stated, fails: the buffer of `main`,
`[1, 1,0,0,0, 3,'f','o','o', 3,'b','a','r']`, carries command code 1, which
`parse` dispatches to `parse_get`; the result is not the Set record. -/
theorem main_buffer_not_set :
    parseBytes (2 ^ 63 - 1) [1, 1, 0, 0, 0, 3, 102, 111, 111, 3, 98, 97, 114]
        = Run.ret ({ Cmd := Command.GetCommand, Key := [102, 111, 111], Value := [] }, none) ∧
    parseBytes (2 ^ 63 - 1) [1, 1, 0, 0, 0, 3, 102, 111, 111, 3, 98, 97, 114]
        ≠ Run.ret ({ Cmd := Command.SetCommand, Key := [102, 111, 111],
                     Value := [98, 97, 114] }, none) := by
  constructor <;> decide

/-- C2, amended: the buffer of `main` decodes successfully with Kind = Get,
Key = "foo" and an empty Value (the bytes after the key are not read), wherever
three bytes can be allocated. -/
theorem main_buffer_is_get (maxAlloc : Nat) (hm : 3 ≤ maxAlloc) :
    parseBytes maxAlloc [1, 1, 0, 0, 0, 3, 102, 111, 111, 3, 98, 97, 114]
      = Run.ret ({ Cmd := Command.GetCommand, Key := [102, 111, 111], Value := [] }, none) := by
  have h1 : ReadUvarint { s := [1, 1, 0, 0, 0, 3, 102, 111, 111, 3, 98, 97, 114], i := 5 }
      = ((3, none), { s := [1, 1, 0, 0, 0, 3, 102, 111, 111, 3, 98, 97, 114], i := 6 }) := by
    decide
  have h2 : ReadFull { s := [1, 1, 0, 0, 0, 3, 102, 111, 111, 3, 98, 97, 114], i := 6 } 3
      = (([102, 111, 111], none),
          { s := [1, 1, 0, 0, 0, 3, 102, 111, 111, 3, 98, 97, 114], i := 9 }) := by
    decide
  have hc : Uint32LE [1, 0, 0, 0] = 1 := by decide
  rw [parseBytes, parse_dispatch]
  simp only [hc, one_ne_zero, if_false, if_true, parse_get, getString, h1, h2]
  rw [if_neg (by omega)]
  rfl

/-- The amended C2 on a platform whose allocation bound is the largest `int`. -/
theorem main_buffer_is_get_witness :
    3 ≤ 2 ^ 63 - 1 ∧
    parseBytes (2 ^ 63 - 1) [1, 1, 0, 0, 0, 3, 102, 111, 111, 3, 98, 97, 114]
      = Run.ret ({ Cmd := Command.GetCommand, Key := [102, 111, 111], Value := [] }, none) :=
  ⟨by decide, main_buffer_is_get (2 ^ 63 - 1) (by decide)⟩

/-- C3 at its failing input: the valid Set buffer
`[1, 0,0,0,0, 3,'f','o','o', 3,'b','a','r']` cut after 9 bytes (the value field
is missing).  `parse_set` reports `io.EOF`, yet `parse` returns the record
Set/"foo"/"" with a `nil` error, so the result is not a Truncated failure.  The
same happens when the cut falls inside the value (11 bytes), inside the key
(7 bytes) or inside the command code (3 bytes). -/
theorem truncated_set_not_rejected :
    (parse_set (2 ^ 63 - 1) { s := [1, 0, 0, 0, 0, 3, 102, 111, 111], i := 5 }).result
        = Run.ret ({ Cmd := Command.SetCommand, Key := [102, 111, 111], Value := [] },
            some GoError.EOF) ∧
    parseBytes (2 ^ 63 - 1) ([1, 0, 0, 0, 0, 3, 102, 111, 111, 3, 98, 97, 114].take 9)
        = Run.ret ({ Cmd := Command.SetCommand, Key := [102, 111, 111], Value := [] }, none) ∧
    isTruncated none = false ∧
    parseBytes (2 ^ 63 - 1) ([1, 0, 0, 0, 0, 3, 102, 111, 111, 3, 98, 97, 114].take 11)
        = Run.ret ({ Cmd := Command.SetCommand, Key := [102, 111, 111], Value := [] }, none) ∧
    parseBytes (2 ^ 63 - 1) ([1, 0, 0, 0, 0, 3, 102, 111, 111, 3, 98, 97, 114].take 7)
        = Run.ret ({ Cmd := Command.SetCommand, Key := [], Value := [] }, none) ∧
    parseBytes (2 ^ 63 - 1) ([1, 0, 0, 0, 0, 3, 102, 111, 111, 3, 98, 97, 114].take 3)
        = Run.ret ({ Cmd := Command.SetCommand, Key := [], Value := [] }, none) := by
  refine ⟨?_, ?_, ?_, ?_, ?_, ?_⟩ <;> decide

/-- C4 at its failing inputs: on the 2-byte buffer `[1, 9]` the command-code
read `getU32` succeeds with the zero-extended value 9 although only one byte
remains, and `parse` fails with `Unknown command`, which is not Truncated; on
`[1, 0]` and `[1, 0, 0, 0]` `parse` returns no error at all.  Buffers of 0 and 1
bytes do fail with `unexpected end of input`. -/
theorem short_buffer_not_truncated :
    getU32 { s := [1, 9], i := 1 } = ((9, none), { s := [1, 9], i := 2 }) ∧
    parseBytes (2 ^ 63 - 1) [1, 9]
        = Run.ret ({ Cmd := Command.UnknownCommand, Key := [], Value := [] },
            some GoError.unknownCommand) ∧
    isTruncated (some GoError.unknownCommand) = false ∧
    parseBytes (2 ^ 63 - 1) [1, 0]
        = Run.ret ({ Cmd := Command.SetCommand, Key := [], Value := [] }, none) ∧
    parseBytes (2 ^ 63 - 1) [1, 0, 0, 0]
        = Run.ret ({ Cmd := Command.SetCommand, Key := [], Value := [] }, none) ∧
    parseBytes (2 ^ 63 - 1) []
        = Run.ret ({ Cmd := Command.SetCommand, Key := [], Value := [] },
            some GoError.unexpectedEndOfInput) ∧
    parseBytes (2 ^ 63 - 1) [1]
        = Run.ret ({ Cmd := Command.UnknownCommand, Key := [], Value := [] },
            some GoError.unexpectedEndOfInput) := by
  refine ⟨?_, ?_, ?_, ?_, ?_, ?_, ?_⟩ <;> decide

/-- C5: for every buffer of at least 5 bytes whose command code (bytes 1..4,
little-endian) is not 0, 1 or 2, `parse` fails with the `Unknown command` error
and returns the record with `Cmd = UnknownCommand` and empty `Key` and `Value`,
whatever bytes follow. -/
theorem parse_unknown_command (maxAlloc : Nat) (buf : List UInt8) (hlen : 5 ≤ buf.length)
    (h0 : commandCode buf ≠ 0) (h1 : commandCode buf ≠ 1) (h2 : commandCode buf ≠ 2) :
    parseBytes maxAlloc buf
      = Run.ret ({ Cmd := Command.UnknownCommand, Key := [], Value := [] },
          some GoError.unknownCommand) := by
  match buf, hlen with
  | h :: c0 :: c1 :: c2 :: c3 :: body, _ =>
    have hc : Uint32LE [c0, c1, c2, c3] = commandCode (h :: c0 :: c1 :: c2 :: c3 :: body) := by
      rw [Uint32LE_eq]; rfl
    rw [parseBytes, parse_dispatch]
    simp only [hc, if_neg h0, if_neg h1, if_neg h2, Run.result]

/-- C5 at the buffer `[1, 9,0,0,0]`: unknown command code 9 and no body. -/
theorem parse_unknown_command_witness :
    (5 ≤ [1, 9, 0, 0, 0].length ∧ commandCode [1, 9, 0, 0, 0] ≠ 0 ∧
      commandCode [1, 9, 0, 0, 0] ≠ 1 ∧ commandCode [1, 9, 0, 0, 0] ≠ 2) ∧
    parseBytes (2 ^ 63 - 1) [1, 9, 0, 0, 0]
      = Run.ret ({ Cmd := Command.UnknownCommand, Key := [], Value := [] },
          some GoError.unknownCommand) :=
  ⟨⟨by decide, by decide, by decide, by decide⟩,
    parse_unknown_command (2 ^ 63 - 1) [1, 9, 0, 0, 0] (by decide) (by decide) (by decide)
      (by decide)⟩

/-- C6 at its failing input `[1, 0,0,0,0]` (a Set with no body): on the
remaining bytes `parse_set` returns the error `io.EOF`, and `parse` returns the
same record with a `nil` error; likewise for `parse_get` on `[1, 1,0,0,0]` and
`parse_clear` on `[1, 2,0,0,0]`.  The pair is not passed through unchanged. -/
theorem dispatcher_drops_body_error :
    ((parse_set (2 ^ 63 - 1) { s := [1, 0, 0, 0, 0], i := 5 }).result
        = Run.ret ({ Cmd := Command.SetCommand, Key := [], Value := [] }, some GoError.EOF) ∧
     parseBytes (2 ^ 63 - 1) [1, 0, 0, 0, 0]
        = Run.ret ({ Cmd := Command.SetCommand, Key := [], Value := [] }, none)) ∧
    ((parse_get (2 ^ 63 - 1) { s := [1, 1, 0, 0, 0], i := 5 }).result
        = Run.ret ({ Cmd := Command.GetCommand, Key := [], Value := [] }, some GoError.EOF) ∧
     parseBytes (2 ^ 63 - 1) [1, 1, 0, 0, 0]
        = Run.ret ({ Cmd := Command.GetCommand, Key := [], Value := [] }, none)) ∧
    ((parse_clear (2 ^ 63 - 1) { s := [1, 2, 0, 0, 0], i := 5 }).result
        = Run.ret ({ Cmd := Command.ClearCommand, Key := [], Value := [] }, some GoError.EOF) ∧
     parseBytes (2 ^ 63 - 1) [1, 2, 0, 0, 0]
        = Run.ret ({ Cmd := Command.ClearCommand, Key := [], Value := [] }, none)) := by
  refine ⟨⟨?_, ?_⟩, ⟨?_, ?_⟩, ⟨?_, ?_⟩⟩ <;> decide

/-- C7 at its failing input: the cursor stands at `[3, 'f', 'o']`; the length
varint decodes to 3, two bytes remain after it, `io.ReadFull` fails with
`io.ErrUnexpectedEOF`, and `getString` returns the empty string with a `nil`
error, the cursor at the end of the buffer. -/
theorem getString_swallows_short_payload :
    ReadUvarint { s := [3, 102, 111], i := 0 } = ((3, none), { s := [3, 102, 111], i := 1 }) ∧
    (ReadFull { s := [3, 102, 111], i := 1 } 3).1.2 = some GoError.ErrUnexpectedEOF ∧
    getString (2 ^ 63 - 1) { s := [3, 102, 111], i := 0 }
      = Run.ret (([], none), { s := [3, 102, 111], i := 3 }) := by
  refine ⟨?_, ?_, ?_⟩ <;> decide

/-- C8 at its failing input: header 1, command code 0 (Set) and a key length
prefix `ff ff ff ff ff ff ff ff ff 01`, the varint of `2 ^ 64 - 1`.
`binary.ReadUvarint` decodes the length without error, `make([]byte, length)`
cannot allocate it even under the largest bound a platform can have, and
`parse` panics instead of returning a pair. -/
theorem huge_length_prefix_panics :
    ReadUvarint { s := [1, 0, 0, 0, 0, 255, 255, 255, 255, 255, 255, 255, 255, 255, 1], i := 5 }
      = ((2 ^ 64 - 1, none),
          { s := [1, 0, 0, 0, 0, 255, 255, 255, 255, 255, 255, 255, 255, 255, 1], i := 15 }) ∧
    parseBytes (2 ^ 63 - 1) [1, 0, 0, 0, 0, 255, 255, 255, 255, 255, 255, 255, 255, 255, 1]
      = Run.panics := by
  constructor <;> decide

/-- C9: round trip through the mirror encoder.  For every record `c` of kind
Set, Get or Clear whose key (and value, for a Set) `make` can allocate, `parse`
succeeds on `encode h0 c`, and encoding the record it returns gives back the
same buffer. -/
theorem encode_parse_roundtrip (maxAlloc : Nat) (h0 : UInt8) (c : CommandInfo)
    (hm : maxAlloc < 2 ^ 64) (hkind : c.Cmd ≠ Command.UnknownCommand)
    (hK : c.Key.length ≤ maxAlloc)
    (hV : c.Cmd = Command.SetCommand → c.Value.length ≤ maxAlloc) :
    ∃ rec, parseBytes maxAlloc (encode h0 c) = Run.ret (rec, none) ∧
      encode h0 rec = encode h0 c := by
  refine ⟨_, parseBytes_encode maxAlloc h0 c hm hkind hK hV, ?_⟩
  obtain ⟨cmd, K, V⟩ := c
  cases cmd <;> simp [encode]

/-- C9 at the records Set "foo" "bar" and Get "foo" (the latter with a stray
value, which the encoder does not emit). -/
theorem encode_parse_roundtrip_witness :
    ((2 ^ 63 - 1 < 2 ^ 64 ∧ Command.GetCommand ≠ Command.UnknownCommand ∧
      [102, 111, 111].length ≤ 2 ^ 63 - 1 ∧
      (Command.GetCommand = Command.SetCommand → [98, 97, 114].length ≤ 2 ^ 63 - 1)) ∧
    ∃ rec, parseBytes (2 ^ 63 - 1)
        (encode 1 { Cmd := Command.GetCommand, Key := [102, 111, 111], Value := [98, 97, 114] })
          = Run.ret (rec, none) ∧
      encode 1 rec
        = encode 1 { Cmd := Command.GetCommand, Key := [102, 111, 111], Value := [98, 97, 114] }) ∧
    ∃ rec, parseBytes (2 ^ 63 - 1)
        (encode 1 { Cmd := Command.SetCommand, Key := [102, 111, 111], Value := [98, 97, 114] })
          = Run.ret (rec, none) ∧
      encode 1 rec
        = encode 1 { Cmd := Command.SetCommand, Key := [102, 111, 111], Value := [98, 97, 114] } :=
  ⟨⟨⟨by decide, by decide, by decide, fun _ => by decide⟩,
      encode_parse_roundtrip (2 ^ 63 - 1) 1
        { Cmd := Command.GetCommand, Key := [102, 111, 111], Value := [98, 97, 114] }
        (by decide) (by decide) (by decide) (fun _ => by decide)⟩,
    encode_parse_roundtrip (2 ^ 63 - 1) 1
      { Cmd := Command.SetCommand, Key := [102, 111, 111], Value := [98, 97, 114] }
      (by decide) (by decide) (by decide) (fun _ => by decide)⟩

/-- C10: record invariant.  For every byte buffer on which `parse` returns,
with or without an error, the record has a non-empty `Value` only if its `Cmd`
is `SetCommand`; for Get, Clear and Unknown the `Value` is empty. -/
theorem parse_value_only_for_set (maxAlloc : Nat) (buf : List UInt8) (ci : CommandInfo)
    (err : Option GoError) (h : parseBytes maxAlloc buf = Run.ret (ci, err)) :
    (ci.Value ≠ [] → ci.Cmd = Command.SetCommand) ∧
    (ci.Cmd ≠ Command.SetCommand → ci.Value = []) := by
  have key : ci.Cmd = Command.SetCommand ∨ ci.Value = [] := by
    unfold parseBytes parse at h
    split at h
    · cases h; exact Or.inl rfl
    · simp only at h
      split at h
      · cases h; exact Or.inr rfl
      · split at h
        · generalize hp : parse_set maxAlloc _ = p at h
          cases p with
          | panics => cases h
          | ret a =>
            obtain ⟨⟨ci1, e1⟩, d3⟩ := a
            cases h
            exact Or.inl ((body_record_shape maxAlloc _ _ _ _).1 hp)
        · split at h
          · generalize hp : parse_get maxAlloc _ = p at h
            cases p with
            | panics => cases h
            | ret a =>
              obtain ⟨⟨ci1, e1⟩, d3⟩ := a
              cases h
              exact Or.inr ((body_record_shape maxAlloc _ _ _ _).2.1 hp).2
          · split at h
            · generalize hp : parse_clear maxAlloc _ = p at h
              cases p with
              | panics => cases h
              | ret a =>
                obtain ⟨⟨ci1, e1⟩, d3⟩ := a
                cases h
                exact Or.inr ((body_record_shape maxAlloc _ _ _ _).2.2 hp).2
            · cases h; exact Or.inr rfl
  constructor
  · intro hv
    rcases key with hk | hk
    · exact hk
    · exact absurd hk hv
  · intro hc
    rcases key with hk | hk
    · exact absurd hk hc
    · exact hk

/-- C10 at the Set buffer for "foo" / "bar", whose record has a non-empty
value, and at the Get buffer of `main`, whose record has an empty one. -/
theorem parse_value_only_for_set_witness :
    (parseBytes (2 ^ 63 - 1) [1, 0, 0, 0, 0, 3, 102, 111, 111, 3, 98, 97, 114]
        = Run.ret ({ Cmd := Command.SetCommand, Key := [102, 111, 111],
                     Value := [98, 97, 114] }, none) ∧
     (([98, 97, 114] : List UInt8) ≠ [] → Command.SetCommand = Command.SetCommand) ∧
     (Command.SetCommand ≠ Command.SetCommand → ([98, 97, 114] : List UInt8) = [])) ∧
    (parseBytes (2 ^ 63 - 1) [1, 1, 0, 0, 0, 3, 102, 111, 111, 3, 98, 97, 114]
        = Run.ret ({ Cmd := Command.GetCommand, Key := [102, 111, 111], Value := [] }, none) ∧
     (([] : List UInt8) ≠ [] → Command.GetCommand = Command.SetCommand) ∧
     (Command.GetCommand ≠ Command.SetCommand → ([] : List UInt8) = [])) :=
  ⟨⟨by decide,
    parse_value_only_for_set (2 ^ 63 - 1) [1, 0, 0, 0, 0, 3, 102, 111, 111, 3, 98, 97, 114]
      { Cmd := Command.SetCommand, Key := [102, 111, 111], Value := [98, 97, 114] } none
      (by decide)⟩,
   ⟨by decide,
    parse_value_only_for_set (2 ^ 63 - 1) [1, 1, 0, 0, 0, 3, 102, 111, 111, 3, 98, 97, 114]
      { Cmd := Command.GetCommand, Key := [102, 111, 111], Value := [] } none
      (by decide)⟩⟩

/-- C11: Unknown is never a successful decode.  For every byte buffer, if the
record `parse` returns has `Cmd = UnknownCommand`, the error returned with it
is not `nil`. -/
theorem parse_unknown_has_error (maxAlloc : Nat) (buf : List UInt8) (ci : CommandInfo)
    (err : Option GoError) (h : parseBytes maxAlloc buf = Run.ret (ci, err))
    (hc : ci.Cmd = Command.UnknownCommand) : err ≠ none := by
  unfold parseBytes parse at h
  split at h
  · cases h; cases hc
  · simp only at h
    split at h
    · cases h; simp
    · split at h
      · generalize hp : parse_set maxAlloc _ = p at h
        cases p with
        | panics => cases h
        | ret a =>
          obtain ⟨⟨ci1, e1⟩, d3⟩ := a
          cases h
          have := (body_record_shape maxAlloc _ _ _ _).1 hp
          rw [this] at hc; cases hc
      · split at h
        · generalize hp : parse_get maxAlloc _ = p at h
          cases p with
          | panics => cases h
          | ret a =>
            obtain ⟨⟨ci1, e1⟩, d3⟩ := a
            cases h
            have := ((body_record_shape maxAlloc _ _ _ _).2.1 hp).1
            rw [this] at hc; cases hc
        · split at h
          · generalize hp : parse_clear maxAlloc _ = p at h
            cases p with
            | panics => cases h
            | ret a =>
              obtain ⟨⟨ci1, e1⟩, d3⟩ := a
              cases h
              have := ((body_record_shape maxAlloc _ _ _ _).2.2 hp).1
              rw [this] at hc; cases hc
          · cases h; simp

/-- C11 at the buffer `[1, 9,0,0,0]`, whose record is Unknown. -/
theorem parse_unknown_has_error_witness :
    (parseBytes (2 ^ 63 - 1) [1, 9, 0, 0, 0]
        = Run.ret ({ Cmd := Command.UnknownCommand, Key := [], Value := [] },
            some GoError.unknownCommand) ∧
      Command.UnknownCommand = Command.UnknownCommand) ∧
    some GoError.unknownCommand ≠ none :=
  ⟨⟨by decide, rfl⟩,
    parse_unknown_has_error (2 ^ 63 - 1) [1, 9, 0, 0, 0]
      { Cmd := Command.UnknownCommand, Key := [], Value := [] } (some GoError.unknownCommand)
      (by decide) rfl⟩

/-- C13: decoding the empty buffer fails with `unexpected end of input`, a
Truncated error.  The header read `getU8` fails exactly when no byte remains at
the cursor, always with that error, and `parse` then returns it with the zero
record. -/
theorem parse_empty_truncated (maxAlloc : Nat) :
    parseBytes maxAlloc []
      = Run.ret ({ Cmd := Command.SetCommand, Key := [], Value := [] },
          some GoError.unexpectedEndOfInput) ∧
    isTruncated (some GoError.unexpectedEndOfInput) = true ∧
    (∀ r : Reader,
      if r.s.length ≤ r.i then
        (getU8 r).1.2 = some GoError.unexpectedEndOfInput ∧
        parse maxAlloc r
          = Run.ret (({ Cmd := Command.SetCommand, Key := [], Value := [] },
              some GoError.unexpectedEndOfInput), r)
      else (getU8 r).1.2 = none) := by
  refine ⟨rfl, rfl, ?_⟩
  intro r
  by_cases hz : r.s.length ≤ r.i
  · simp [parse, getU8, Reader.Read, hz]
  · simp [getU8, Reader.Read, hz]

/-- C14: with at least four bytes `b0, b1, b2, b3` at the cursor, `getU32`
succeeds, returns `b0 + 2^8 * b1 + 2^16 * b2 + 2^24 * b3` and advances the
cursor by exactly 4. -/
theorem getU32_little_endian (r : Reader) (b0 b1 b2 b3 : UInt8) (rest : List UInt8)
    (h : r.s.drop r.i = b0 :: b1 :: b2 :: b3 :: rest) :
    getU32 r = ((b0.toNat + 2 ^ 8 * b1.toNat + 2 ^ 16 * b2.toNat + 2 ^ 24 * b3.toNat, none),
      { r with i := r.i + 4 }) := by
  have hlt : r.i < r.s.length := by
    by_contra hc
    rw [List.drop_eq_nil_of_le (by omega)] at h
    exact List.noConfusion h
  simp only [getU32, Read_of_lt r 4 hlt, h]
  simp [fillZero, Uint32LE_eq]

/-- C14 at the cursor of `main`'s buffer after the header byte, and on the code
`[0x78, 0x56, 0x34, 0x12]`, which reads as `0x12345678`. -/
theorem getU32_little_endian_witness :
    ((({ s := [1, 0x78, 0x56, 0x34, 0x12, 7], i := 1 } : Reader).s.drop 1
        = 0x78 :: 0x56 :: 0x34 :: 0x12 :: [7]) ∧
    getU32 { s := [1, 0x78, 0x56, 0x34, 0x12, 7], i := 1 }
      = (((0x78 : UInt8).toNat + 2 ^ 8 * (0x56 : UInt8).toNat + 2 ^ 16 * (0x34 : UInt8).toNat
            + 2 ^ 24 * (0x12 : UInt8).toNat, none),
          { s := [1, 0x78, 0x56, 0x34, 0x12, 7], i := 1 + 4 })) ∧
    (0x78 : UInt8).toNat + 2 ^ 8 * (0x56 : UInt8).toNat + 2 ^ 16 * (0x34 : UInt8).toNat
      + 2 ^ 24 * (0x12 : UInt8).toNat = 0x12345678 :=
  ⟨⟨rfl, getU32_little_endian { s := [1, 0x78, 0x56, 0x34, 0x12, 7], i := 1 }
      0x78 0x56 0x34 0x12 [7] rfl⟩, by decide⟩

/-- C16: when the length varint decodes to a length `n` that can be allocated
but fewer than `n` bytes remain after it, `getString` discards the error of
`io.ReadFull` and returns the empty string with a `nil` error, the cursor at
the end of the buffer. -/
theorem getString_short_payload_no_error (maxAlloc : Nat) (r r1 : Reader) (n : Nat)
    (hu : ReadUvarint r = ((n, none), r1)) (ha : n ≤ maxAlloc)
    (hshort : r1.s.length - r1.i < n) :
    (ReadFull r1 n).1.2 ≠ none ∧
    getString maxAlloc r = Run.ret (([], none), { r1 with i := r1.s.length }) := by
  have hr := ReadUvarint_ok_within r r1 n hu
  have hadv := ReadUvarint_advances r hr
  rw [hu] at hadv
  obtain ⟨buf, e, hf⟩ := ReadFull_short r1 n (by rw [hadv.1]; exact hadv.2.2) hshort
  refine ⟨by rw [hf]; simp, ?_⟩
  simp only [getString, hu, hf]
  rw [if_neg (by omega)]

/-- C16 at the cursor `[3, 'f', 'o']`: length 3, two bytes left. -/
theorem getString_short_payload_no_error_witness :
    (ReadUvarint { s := [3, 102, 111], i := 0 } = ((3, none), { s := [3, 102, 111], i := 1 }) ∧
      3 ≤ 2 ^ 63 - 1 ∧
      ({ s := [3, 102, 111], i := 1 } : Reader).s.length
        - ({ s := [3, 102, 111], i := 1 } : Reader).i < 3) ∧
    ((ReadFull { s := [3, 102, 111], i := 1 } 3).1.2 ≠ none ∧
      getString (2 ^ 63 - 1) { s := [3, 102, 111], i := 0 }
        = Run.ret (([], none),
            { ({ s := [3, 102, 111], i := 1 } : Reader) with
              i := ({ s := [3, 102, 111], i := 1 } : Reader).s.length })) :=
  ⟨⟨by decide, by decide, by decide⟩,
    getString_short_payload_no_error (2 ^ 63 - 1) { s := [3, 102, 111], i := 0 }
      { s := [3, 102, 111], i := 1 } 3 (by decide) (by decide) (by decide)⟩

/-- C17: the dispatcher discards the body parser's error.  When `parse` reaches
a matched-command branch (header byte read, command code read as 0, 1 or 2),
whatever the body parser `parse_set` / `parse_get` / `parse_clear` returns on
the remaining bytes, with or without an error, `parse` returns that record and
cursor with a `nil` error; and every result `parse` returns from such a branch
has a `nil` error. -/
theorem parse_discards_body_error (maxAlloc : Nat) (data d1 d2 d3 : Reader) (h : UInt8)
    (c : Nat) (ci : CommandInfo) (e : Option GoError)
    (hU8 : getU8 data = ((h, none), d1)) (hU32 : getU32 d1 = ((c, none), d2)) :
    (c = 0 → parse_set maxAlloc d2 = Run.ret ((ci, e), d3) →
      parse maxAlloc data = Run.ret ((ci, none), d3)) ∧
    (c = 1 → parse_get maxAlloc d2 = Run.ret ((ci, e), d3) →
      parse maxAlloc data = Run.ret ((ci, none), d3)) ∧
    (c = 2 → parse_clear maxAlloc d2 = Run.ret ((ci, e), d3) →
      parse maxAlloc data = Run.ret ((ci, none), d3)) ∧
    (c = 0 ∨ c = 1 ∨ c = 2 → ∀ (ci1 : CommandInfo) (err : Option GoError) (r1 : Reader),
      parse maxAlloc data = Run.ret ((ci1, err), r1) → err = none) := by
  refine ⟨?_, ?_, ?_, ?_⟩
  · intro hc hb
    subst hc
    simp only [parse, hU8, hU32, hb, if_true]
  · intro hc hb
    subst hc
    simp only [parse, hU8, hU32, hb, one_ne_zero, if_false, if_true]
  · intro hc hb
    subst hc
    simp only [parse, hU8, hU32, hb, OfNat.ofNat_ne_zero, OfNat.ofNat_ne_one, if_false, if_true]
  · intro hc ci1 err r1 hp
    simp only [parse, hU8, hU32] at hp
    rcases hc with rfl | rfl | rfl
    · simp only [if_true] at hp
      generalize parse_set maxAlloc d2 = q at hp
      cases q with
      | panics => cases hp
      | ret a => obtain ⟨⟨ci2, e2⟩, d4⟩ := a; cases hp; rfl
    · simp only [one_ne_zero, if_false, if_true] at hp
      generalize parse_get maxAlloc d2 = q at hp
      cases q with
      | panics => cases hp
      | ret a => obtain ⟨⟨ci2, e2⟩, d4⟩ := a; cases hp; rfl
    · simp only [OfNat.ofNat_ne_zero, OfNat.ofNat_ne_one, if_false, if_true] at hp
      generalize parse_clear maxAlloc d2 = q at hp
      cases q with
      | panics => cases hp
      | ret a => obtain ⟨⟨ci2, e2⟩, d4⟩ := a; cases hp; rfl

/-- C17 at `[1, 0,0,0,0]`, a Set with no body: `parse_set` returns `io.EOF`,
and `parse` returns Set with empty key and value and no error. -/
theorem parse_discards_body_error_witness :
    (getU8 (NewReader [1, 0, 0, 0, 0]) = ((1, none), { s := [1, 0, 0, 0, 0], i := 1 }) ∧
      getU32 { s := [1, 0, 0, 0, 0], i := 1 } = ((0, none), { s := [1, 0, 0, 0, 0], i := 5 }) ∧
      parse_set (2 ^ 63 - 1) { s := [1, 0, 0, 0, 0], i := 5 }
        = Run.ret (({ Cmd := Command.SetCommand, Key := [], Value := [] }, some GoError.EOF),
            { s := [1, 0, 0, 0, 0], i := 5 })) ∧
    parse (2 ^ 63 - 1) (NewReader [1, 0, 0, 0, 0])
      = Run.ret (({ Cmd := Command.SetCommand, Key := [], Value := [] }, none),
          { s := [1, 0, 0, 0, 0], i := 5 }) :=
  ⟨⟨by decide, by decide, by decide⟩,
    (parse_discards_body_error (2 ^ 63 - 1) (NewReader [1, 0, 0, 0, 0])
      { s := [1, 0, 0, 0, 0], i := 1 } { s := [1, 0, 0, 0, 0], i := 5 }
      { s := [1, 0, 0, 0, 0], i := 5 } 1 0
      { Cmd := Command.SetCommand, Key := [], Value := [] } (some GoError.EOF)
      (by decide) (by decide)).1 rfl (by decide)⟩

/-- C18: cursor invariant.  From a position within the buffer, `getU8`,
`getU32` and `getString` each leave the cursor on the same buffer at a position
that did not decrease and does not exceed the buffer length, whether they
succeed or fail (for a `getString` that panics, the position is the one after
the length varint); hence so does `parse` whenever it returns. -/
theorem cursor_invariant (maxAlloc : Nat) (r : Reader) (h : r.i ≤ r.s.length) :
    r.advances (getU8 r).2 ∧ r.advances (getU32 r).2 ∧
    (match getString maxAlloc r with
      | Run.ret (_, r1) => r.advances r1
      | Run.panics => r.advances (ReadUvarint r).2) ∧
    (∀ res r1, parse maxAlloc r = Run.ret (res, r1) → r.advances r1) :=
  ⟨getU8_advances r h, getU32_advances r h, getString_advances maxAlloc r h,
    parse_advances maxAlloc r h⟩

/-- C18 at the start of the Set buffer for "foo" / "bar". -/
theorem cursor_invariant_witness :
    (NewReader [1, 0, 0, 0, 0, 3, 102, 111, 111, 3, 98, 97, 114]).i
      ≤ (NewReader [1, 0, 0, 0, 0, 3, 102, 111, 111, 3, 98, 97, 114]).s.length ∧
    ((NewReader [1, 0, 0, 0, 0, 3, 102, 111, 111, 3, 98, 97, 114]).advances
        (getU8 (NewReader [1, 0, 0, 0, 0, 3, 102, 111, 111, 3, 98, 97, 114])).2 ∧
     (NewReader [1, 0, 0, 0, 0, 3, 102, 111, 111, 3, 98, 97, 114]).advances
        (getU32 (NewReader [1, 0, 0, 0, 0, 3, 102, 111, 111, 3, 98, 97, 114])).2 ∧
     (match getString (2 ^ 63 - 1) (NewReader [1, 0, 0, 0, 0, 3, 102, 111, 111, 3, 98, 97, 114]) with
      | Run.ret (_, r1) =>
        (NewReader [1, 0, 0, 0, 0, 3, 102, 111, 111, 3, 98, 97, 114]).advances r1
      | Run.panics =>
        (NewReader [1, 0, 0, 0, 0, 3, 102, 111, 111, 3, 98, 97, 114]).advances
          (ReadUvarint (NewReader [1, 0, 0, 0, 0, 3, 102, 111, 111, 3, 98, 97, 114])).2) ∧
     (∀ res r1,
        parse (2 ^ 63 - 1) (NewReader [1, 0, 0, 0, 0, 3, 102, 111, 111, 3, 98, 97, 114])
          = Run.ret (res, r1) →
        (NewReader [1, 0, 0, 0, 0, 3, 102, 111, 111, 3, 98, 97, 114]).advances r1)) :=
  ⟨by decide,
    cursor_invariant (2 ^ 63 - 1) (NewReader [1, 0, 0, 0, 0, 3, 102, 111, 111, 3, 98, 97, 114])
      (by decide)⟩

/-- C19: short command-code reads are zero-extended.  With exactly `k` bytes
`bs` left at the cursor, `k` in {1, 2, 3}, `getU32` returns no error and the
little-endian value of those bytes (the missing high-order bytes count as 0),
leaving the cursor at the end of the buffer; `getU32` returns an error only when
no byte is left.  Consequently `parse` on a buffer of 2, 3 or 4 bytes
`h :: bs` dispatches on that value: 0, 1 and 2 give the Set, Get and Clear
record with empty fields and no error, any other value the Unknown record with
the `Unknown command` error. -/
theorem getU32_zero_extends (maxAlloc : Nat) (h : UInt8) (bs : List UInt8)
    (h1 : 1 ≤ bs.length) (h3 : bs.length ≤ 3) :
    (∀ r : Reader, r.s.drop r.i = bs →
      getU32 r = ((leValue bs, none), { r with i := r.s.length })) ∧
    (∀ r : Reader, (getU32 r).1.2
      = if r.s.length ≤ r.i then some GoError.unexpectedEndOfInput else none) ∧
    parseBytes maxAlloc (h :: bs) =
      (if leValue bs = 0 then
        Run.ret ({ Cmd := Command.SetCommand, Key := [], Value := [] }, none)
      else if leValue bs = 1 then
        Run.ret ({ Cmd := Command.GetCommand, Key := [], Value := [] }, none)
      else if leValue bs = 2 then
        Run.ret ({ Cmd := Command.ClearCommand, Key := [], Value := [] }, none)
      else
        Run.ret ({ Cmd := Command.UnknownCommand, Key := [], Value := [] },
          some GoError.unknownCommand)) := by
  have hval : Uint32LE (fillZero 4 bs) = leValue bs := by
    match bs, h1, h3 with
    | [b0], _, _ =>
      have := Uint32LE_eq b0 0 0 0
      simp only [fillZero, leValue] at this ⊢
      simpa using this
    | [b0, b1], _, _ =>
      have := Uint32LE_eq b0 b1 0 0
      simp only [fillZero, leValue] at this ⊢
      simpa using this
    | [b0, b1, b2], _, _ =>
      have := Uint32LE_eq b0 b1 b2 0
      simp only [fillZero, leValue] at this ⊢
      simp at this ⊢
      omega
  have hget : ∀ r : Reader, r.s.drop r.i = bs →
      getU32 r = ((leValue bs, none), { r with i := r.s.length }) := by
    intro r hd
    have hlen : r.s.length - r.i = bs.length := by rw [← hd, List.length_drop]
    have hlt : r.i < r.s.length := by omega
    have htake : (r.s.drop r.i).take 4 = bs := by
      rw [hd]; exact List.take_of_length_le (by omega)
    simp only [getU32, Read_of_lt r 4 hlt, htake, hval]
    congr 2
    omega
  refine ⟨hget, ?_, ?_⟩
  · intro r
    by_cases hz : r.s.length ≤ r.i
    · simp [getU32, Reader.Read, hz]
    · simp [getU32, Reader.Read, hz]
  · have hg8 : getU8 (NewReader (h :: bs)) = ((h, none), { s := h :: bs, i := 1 }) := by
      simp [getU8, NewReader, Reader.Read, fillZero]
    have hg32 := hget { s := h :: bs, i := 1 } (by simp)
    obtain ⟨hs, hg, hc⟩ := body_at_end maxAlloc
      { ({ s := h :: bs, i := 1 } : Reader) with
        i := ({ s := h :: bs, i := 1 } : Reader).s.length } (le_refl _)
    simp only [parseBytes, parse, hg8, hg32, hs, hg, hc]
    split
    · rfl
    · split
      · rfl
      · split <;> rfl

/-- C19 on the 2-byte buffer `[1, 9]` (code byte 9, three bytes missing) and
the 3-byte buffer `[1, 1, 0]`. -/
theorem getU32_zero_extends_witness :
    ((1 ≤ [(9 : UInt8)].length ∧ [(9 : UInt8)].length ≤ 3) ∧
      getU32 { s := [1, 9], i := 1 } = ((9, none), { s := [1, 9], i := 2 }) ∧
      parseBytes (2 ^ 63 - 1) [1, 9]
        = Run.ret ({ Cmd := Command.UnknownCommand, Key := [], Value := [] },
            some GoError.unknownCommand)) ∧
    ((1 ≤ [(1 : UInt8), 0].length ∧ [(1 : UInt8), 0].length ≤ 3) ∧
      parseBytes (2 ^ 63 - 1) [1, 1, 0]
        = Run.ret ({ Cmd := Command.GetCommand, Key := [], Value := [] }, none)) :=
  ⟨⟨⟨by decide, by decide⟩,
      (getU32_zero_extends (2 ^ 63 - 1) 1 [9] (by decide) (by decide)).1
        { s := [1, 9], i := 1 } rfl,
      (getU32_zero_extends (2 ^ 63 - 1) 1 [9] (by decide) (by decide)).2.2⟩,
    ⟨⟨by decide, by decide⟩,
      (getU32_zero_extends (2 ^ 63 - 1) 1 [1, 0] (by decide) (by decide)).2.2⟩⟩

/-- C15: `getString` accepts any terminating unsigned-LEB128 length, minimal or
not.  For every payload `p` of `n < 2 ^ 63` bytes (which `make` can allocate),
every LEB128 encoding `e` of `n` of at most 10 bytes and every suffix `rest`,
`getString` at a cursor positioned on `e ++ p ++ rest` returns `p` with no
error and advances the cursor by exactly `len(e) + n`. -/
theorem getString_accepts_any_leb128 (maxAlloc : Nat) (r : Reader) (e p rest : List UInt8)
    (he : lengthPrefix e p.length) (hn : p.length < 2 ^ 63) (ha : p.length ≤ maxAlloc)
    (hd : r.s.drop r.i = e ++ p ++ rest) :
    getString maxAlloc r = Run.ret ((p, none), { r with i := r.i + (e.length + p.length) }) := by
  have := getString_leb128 maxAlloc r e p rest he (by omega) ha (by rw [hd, List.append_assoc])
  rw [this, Nat.add_assoc]

/-- C15 on the padded encoding `[0x83, 0x00]` of 3, in front of "foo" and a
suffix, at offset 5 of a buffer. -/
theorem getString_accepts_any_leb128_witness :
    (lengthPrefix [0x83, 0x00] [102, 111, 111].length ∧ [102, 111, 111].length < 2 ^ 63 ∧
      [102, 111, 111].length ≤ 2 ^ 63 - 1 ∧
      ({ s := [1, 1, 0, 0, 0, 0x83, 0x00, 102, 111, 111, 7, 7], i := 5 } : Reader).s.drop 5
        = [0x83, 0x00] ++ [102, 111, 111] ++ [7, 7]) ∧
    getString (2 ^ 63 - 1) { s := [1, 1, 0, 0, 0, 0x83, 0x00, 102, 111, 111, 7, 7], i := 5 }
      = Run.ret (([102, 111, 111], none),
          { s := [1, 1, 0, 0, 0, 0x83, 0x00, 102, 111, 111, 7, 7], i := 5 + (2 + 3) }) :=
  ⟨⟨by decide, by decide, by decide, by decide⟩,
    getString_accepts_any_leb128 (2 ^ 63 - 1)
      { s := [1, 1, 0, 0, 0, 0x83, 0x00, 102, 111, 111, 7, 7], i := 5 }
      [0x83, 0x00] [102, 111, 111] [7, 7] (by decide) (by decide) (by decide) (by decide)⟩

/-- C20: trailing bytes are ignored.  For every validly encoded Set, Get or
Clear buffer `b` (header byte, command code, fully present fields whose length
prefixes are LEB128 encodings of the field lengths) and every byte sequence
`ext`, `parse (b ++ ext)` returns the same record and the same `nil` error as
`parse b`. -/
theorem trailing_bytes_ignored (maxAlloc : Nat) (h : UInt8) (eK K eV V ext : List UInt8)
    (hm : maxAlloc < 2 ^ 64)
    (hK : lengthPrefix eK K.length) (hKa : K.length ≤ maxAlloc)
    (hV : lengthPrefix eV V.length) (hVa : V.length ≤ maxAlloc) :
    (parseBytes maxAlloc (([h] ++ u32le 0 ++ eK ++ K ++ eV ++ V) ++ ext)
        = parseBytes maxAlloc ([h] ++ u32le 0 ++ eK ++ K ++ eV ++ V) ∧
      parseBytes maxAlloc ([h] ++ u32le 0 ++ eK ++ K ++ eV ++ V)
        = Run.ret ({ Cmd := Command.SetCommand, Key := K, Value := V }, none)) ∧
    (parseBytes maxAlloc (([h] ++ u32le 1 ++ eK ++ K) ++ ext)
        = parseBytes maxAlloc ([h] ++ u32le 1 ++ eK ++ K) ∧
      parseBytes maxAlloc ([h] ++ u32le 1 ++ eK ++ K)
        = Run.ret ({ Cmd := Command.GetCommand, Key := K, Value := [] }, none)) ∧
    (parseBytes maxAlloc (([h] ++ u32le 2 ++ eK ++ K) ++ ext)
        = parseBytes maxAlloc ([h] ++ u32le 2 ++ eK ++ K) ∧
      parseBytes maxAlloc ([h] ++ u32le 2 ++ eK ++ K)
        = Run.ret ({ Cmd := Command.ClearCommand, Key := K, Value := [] }, none)) := by
  have u0 : u32le 0 = [0, 0, 0, 0] := by decide
  have u1 : u32le 1 = [1, 0, 0, 0] := by decide
  have u2 : u32le 2 = [2, 0, 0, 0] := by decide
  obtain ⟨-, -, s1⟩ := parseBytes_valid maxAlloc hm h eK K (eV ++ (V ++ ext)) hK hKa
  obtain ⟨-, -, s2⟩ := parseBytes_valid maxAlloc hm h eK K (eV ++ (V ++ [])) hK hKa
  obtain ⟨g1, c1, -⟩ := parseBytes_valid maxAlloc hm h eK K ext hK hKa
  obtain ⟨g2, c2, -⟩ := parseBytes_valid maxAlloc hm h eK K [] hK hKa
  have s1 := s1 eV V ext hV hVa rfl
  have s2 := s2 eV V [] hV hVa rfl
  simp only [List.append_nil] at s2 g2 c2
  simp only [u0, u1, u2, List.append_assoc, List.singleton_append, List.cons_append,
    List.nil_append]
  exact ⟨⟨by rw [s1, s2], s2⟩, ⟨by rw [g1, g2], g2⟩, ⟨by rw [c1, c2], c2⟩⟩

/-- C20 on the Set buffer for "foo" / "bar" with the padded key length prefix
`[0x83, 0x00]`, followed by the trailing bytes `[9, 9, 9]`. -/
theorem trailing_bytes_ignored_witness :
    (2 ^ 63 - 1 < 2 ^ 64 ∧ lengthPrefix [0x83, 0x00] [102, 111, 111].length ∧
      [102, 111, 111].length ≤ 2 ^ 63 - 1 ∧ lengthPrefix [3] [98, 97, 114].length ∧
      [98, 97, 114].length ≤ 2 ^ 63 - 1) ∧
    parseBytes (2 ^ 63 - 1)
        (([1] ++ u32le 0 ++ [0x83, 0x00] ++ [102, 111, 111] ++ [3] ++ [98, 97, 114]) ++ [9, 9, 9])
      = parseBytes (2 ^ 63 - 1)
        ([1] ++ u32le 0 ++ [0x83, 0x00] ++ [102, 111, 111] ++ [3] ++ [98, 97, 114]) ∧
    parseBytes (2 ^ 63 - 1)
        ([1] ++ u32le 0 ++ [0x83, 0x00] ++ [102, 111, 111] ++ [3] ++ [98, 97, 114])
      = Run.ret ({ Cmd := Command.SetCommand, Key := [102, 111, 111],
                   Value := [98, 97, 114] }, none) :=
  ⟨⟨by decide, by decide, by decide, by decide, by decide⟩,
    (trailing_bytes_ignored (2 ^ 63 - 1) 1 [0x83, 0x00] [102, 111, 111] [3] [98, 97, 114]
      [9, 9, 9] (by decide) (by decide) (by decide) (by decide) (by decide)).1⟩

/-- C12: the value of the header byte does not influence the result.  Two
non-empty buffers that differ only in byte 0 give the same outcome of `parse`:
the same record and the same error (or a panic on both). -/
theorem header_byte_ignored (maxAlloc : Nat) (h h1 : UInt8) (tl : List UInt8) :
    parseBytes maxAlloc (h :: tl) = parseBytes maxAlloc (h1 :: tl) := by
  have hsame : ({ s := h :: tl, i := 1 } : Reader).sameFrom { s := h1 :: tl, i := 1 } :=
    ⟨rfl, by simp, by simp⟩
  obtain ⟨hv, hr⟩ := getU32_sameFrom hsame
  rw [parseBytes_cons, parseBytes_cons]
  generalize getU32 { s := h :: tl, i := 1 } = g at hv hr
  generalize getU32 { s := h1 :: tl, i := 1 } = g1 at hv hr
  obtain ⟨⟨c, e⟩, d2⟩ := g
  obtain ⟨⟨c1, e1⟩, d3⟩ := g1
  simp only at hv hr
  cases hv
  obtain ⟨hs, hg, hc⟩ := body_sameFrom maxAlloc hr
  cases e with
  | some e => rfl
  | none => simp only [hs, hg, hc]

end KVStore
